import Mathlib

/-!
Verification of the `bimap` container.

A shallow embedding of the bidirectional map from `src/bimap.h`,
`src/intrusive_set.h` and `src/intrusive_set.cpp`.

The C++ container stores each pair in one heap allocation (`Node`) that is
simultaneously linked into two intrusive binary search trees: a Left index
ordered by `CompareLeft` on the left value and a Right index ordered by
`CompareRight` on the right value.  Here a tree position is modelled
structurally (`Tree`), the payload of a node is the pair it stores, and an
iterator is `Option (L × R)`: `none` is the sentinel (`end`), `some p` is
the position of the live record holding the pair `p`.  Since each index
rejects duplicate keys, within one container a pair value identifies its
record, so erasure at a position is modelled by descending with that
record's own key — on a valid search tree this reaches exactly the record.
Comparators are arbitrary `Bool`-valued binary predicates, as in the
source; the theorems assume they are strict weak orders, which is the
contract `std::less`-style comparators satisfy.
-/

namespace IntrusiveSet

/-- A node of the intrusive tree (`set_base` from `src/intrusive_set.h`):
left child, payload, right child.  The parent pointer of the C++ node is
structural bookkeeping that a term-level tree does not need. -/
inductive Tree (α : Type) where
  | nil : Tree α
  | node : Tree α → α → Tree α → Tree α
deriving DecidableEq, Repr

/-- In-order traversal: the sequence visited by iterating from `begin()`
to `end()` with `iterator_base::operator++`. -/
def Tree.inorder : Tree α → List α
  | .nil => []
  | .node l v r => l.inorder ++ v :: r.inorder

variable {α κ : Type}

/-- `intrusive_set::set::insert` (src/intrusive_set.h:208-226): descend
comparing keys; on `compare(key, cur)` go left, on `compare(cur, key)` go
right, on neither return the existing position unchanged.  The returned
`Bool` models the identity test `&(*it) == u` performed by the caller:
`true` means a new node was spliced in at the empty slot found. -/
def setInsert (cmp : κ → κ → Bool) (key : α → κ) (x : α) : Tree α → Tree α × Bool
  | .nil => (.node .nil x .nil, true)
  | .node l v r =>
    if cmp (key x) (key v) then
      let p := setInsert cmp key x l
      (.node p.1 v r, p.2)
    else if cmp (key v) (key x) then
      let p := setInsert cmp key x r
      (.node l v p.1, p.2)
    else
      (.node l v r, false)

/-- Removal of the minimum of the (nonempty) tree `node l v r`, returning
the removed payload and the remaining tree.  This is the effect of
`set_base::unlink` on the node reached by `minimum()`: splice its right
child into its parent slot (src/intrusive_set.cpp:16-31). -/
def delMinNe (l : Tree α) (v : α) (r : Tree α) : α × Tree α :=
  match l with
  | .nil => (v, r)
  | .node ll lv lr =>
    let p := delMinNe ll lv lr
    (p.1, .node p.2 v r)

/-- `set_base::unlink` (src/intrusive_set.cpp:16-31) seen from the removed
node's position with subtrees `l` and `r`: no left child — splice the
right child; no right child — splice the left child; two children — swap
positions with the in-order successor (minimum of the right subtree) and
splice there. -/
def unlinkRoot : Tree α → Tree α → Tree α
  | .nil, r => r
  | l, .nil => l
  | l, .node rl rv rr =>
    let p := delMinNe rl rv rr
    .node l p.1 p.2

/-- Erasure of the record whose key is order-equivalent to `k`, modelling
`unlink` of that record's position: the descent retraces the search path
that located the position. -/
def setEraseKey (cmp : κ → κ → Bool) (key : α → κ) (k : κ) : Tree α → Tree α
  | .nil => .nil
  | .node l v r =>
    if cmp k (key v) then .node (setEraseKey cmp key k l) v r
    else if cmp (key v) k then .node l v (setEraseKey cmp key k r)
    else unlinkRoot l r

/-- The descent loop of `intrusive_set::set::lower_bound`
(src/intrusive_set.h:242-256): `best` is the `parent` candidate, the last
node at which the search went left; on key equality the current node is
returned at once. -/
def lowerBoundGo (cmp : κ → κ → Bool) (key : α → κ) (k : κ) :
    Tree α → Option α → Option α
  | .nil, best => best
  | .node l v r, best =>
    if cmp k (key v) then lowerBoundGo cmp key k l (some v)
    else if cmp (key v) k then lowerBoundGo cmp key k r best
    else some v

/-- `intrusive_set::set::lower_bound`, starting with the sentinel (`end`)
as candidate. -/
def setLowerBound (cmp : κ → κ → Bool) (key : α → κ) (k : κ) (t : Tree α) :
    Option α :=
  lowerBoundGo cmp key k t none

/-- `intrusive_set::set::find` (src/intrusive_set.h:234-240): take the
lower bound; if it is a real position whose key is still greater than `k`,
report `end`. -/
def setFind (cmp : κ → κ → Bool) (key : α → κ) (k : κ) (t : Tree α) :
    Option α :=
  match setLowerBound cmp key k t with
  | none => none
  | some v => if cmp k (key v) then none else some v

/-- `iterator_base::operator++` from the position with key `k`: the
structural successor of a node in a search tree is the first in-order
element with a strictly greater key. -/
def succFrom (cmp : κ → κ → Bool) (key : α → κ) (k : κ) (t : Tree α) :
    Option α :=
  t.inorder.find? (fun v => cmp k (key v))

/-- `intrusive_set::set::upper_bound` (src/intrusive_set.h:258-264): take
the lower bound; if it is a real position not greater than `k`
(hence order-equivalent), advance it once. -/
def setUpperBound (cmp : κ → κ → Bool) (key : α → κ) (k : κ) (t : Tree α) :
    Option α :=
  match setLowerBound cmp key k t with
  | none => none
  | some v => if cmp k (key v) then some v else succFrom cmp key (key v) t

/-- `intrusive_set::set::equal` (src/intrusive_set.h:75-78) on two keys:
neither compares less than the other. -/
def keyEqual (cmp : κ → κ → Bool) (a b : κ) : Bool :=
  !cmp a b && !cmp b a

end IntrusiveSet

namespace BimapModel

open IntrusiveSet

/-- The state of a `bimap<Left, Right, CompareLeft, CompareRight>`
(src/bimap.h:67-457): the Left index, the Right index and the pair
counter `m_size`.  Each live `Node` allocation appears once in each tree,
as its pair of values. -/
structure Bimap (L R : Type) where
  leftTree : IntrusiveSet.Tree (L × R)
  rightTree : IntrusiveSet.Tree (L × R)
  m_size : Nat
deriving DecidableEq, Repr

variable {L R : Type}

/-- The default-constructed `bimap`: both indices empty, `m_size = 0`. -/
def Bimap.init : Bimap L R := ⟨.nil, .nil, 0⟩

/-- `bimap::size` (src/bimap.h:380-382). -/
def Bimap.size (m : Bimap L R) : Nat := m.m_size

/-- `bimap::empty` (src/bimap.h:375-377). -/
def Bimap.isEmpty (m : Bimap L R) : Bool := m.size == 0

variable (cmpL : L → L → Bool) (cmpR : R → R → Bool)

/-- `bimap::insert_node` (src/bimap.h:425-438): register the candidate in
the Left index; if the position returned is an existing node, discard the
candidate and report `end_left()`.  Otherwise register in the Right index;
on a collision there, unlink the just-registered Left membership (the
candidate's destructor runs `unlink` on both link substructures), discard,
and report `end_left()`.  Only when both registrations took does `m_size`
increment and the new Left position return. -/
def insertNode (m : Bimap L R) (u : L × R) : Bimap L R × Option (L × R) :=
  let pl := setInsert cmpL Prod.fst u m.leftTree
  if pl.2 = false then
    ({ m with leftTree := pl.1 }, none)
  else
    let pr := setInsert cmpR Prod.snd u m.rightTree
    if pr.2 = false then
      ({ m with leftTree := setEraseKey cmpL Prod.fst u.1 pl.1,
                rightTree := pr.1 }, none)
    else
      (⟨pl.1, pr.1, m.m_size + 1⟩, some u)

/-- `bimap::insert` (src/bimap.h:212-226): allocate the candidate record
from the two values and run the coordinated insert. -/
def Bimap.insert (m : Bimap L R) (l : L) (r : R) :
    Bimap L R × Option (L × R) :=
  insertNode cmpL cmpR m (l, r)

/-- `bimap::find_left` (src/bimap.h:278-280). -/
def findLeft (m : Bimap L R) (k : L) : Option (L × R) :=
  setFind cmpL Prod.fst k m.leftTree

/-- `bimap::find_right` (src/bimap.h:282-284). -/
def findRight (m : Bimap L R) (k : R) : Option (L × R) :=
  setFind cmpR Prod.snd k m.rightTree

/-- `bimap::lower_bound_left` (src/bimap.h:340-342). -/
def lowerBoundLeft (m : Bimap L R) (k : L) : Option (L × R) :=
  setLowerBound cmpL Prod.fst k m.leftTree

/-- `bimap::upper_bound_left` (src/bimap.h:344-346). -/
def upperBoundLeft (m : Bimap L R) (k : L) : Option (L × R) :=
  setUpperBound cmpL Prod.fst k m.leftTree

/-- `bimap::lower_bound_right` (src/bimap.h:348-350). -/
def lowerBoundRight (m : Bimap L R) (k : R) : Option (L × R) :=
  setLowerBound cmpR Prod.snd k m.rightTree

/-- `bimap::upper_bound_right` (src/bimap.h:352-354). -/
def upperBoundRight (m : Bimap L R) (k : R) : Option (L × R) :=
  setUpperBound cmpR Prod.snd k m.rightTree

/-- `bimap::erase_left(left_iterator)` = private `bimap::erase`
(src/bimap.h:417-423) at the Left position of the record holding `p`:
capture `std::next(it)` first, then `delete` the record — its destructor
unlinks it from both indices — and decrement `m_size`. -/
def eraseAtLeft (m : Bimap L R) (p : L × R) : Bimap L R × Option (L × R) :=
  let result := succFrom cmpL Prod.fst p.1 m.leftTree
  (⟨setEraseKey cmpL Prod.fst p.1 m.leftTree,
    setEraseKey cmpR Prod.snd p.2 m.rightTree,
    m.m_size - 1⟩, result)

/-- `bimap::erase_right(right_iterator)`, symmetric to `eraseAtLeft`. -/
def eraseAtRight (m : Bimap L R) (p : L × R) : Bimap L R × Option (L × R) :=
  let result := succFrom cmpR Prod.snd p.2 m.rightTree
  (⟨setEraseKey cmpL Prod.fst p.1 m.leftTree,
    setEraseKey cmpR Prod.snd p.2 m.rightTree,
    m.m_size - 1⟩, result)

/-- `bimap::erase_left(left_t const&)` (src/bimap.h:239-246): find, erase
if present, report whether a pair was removed. -/
def eraseLeftKey (m : Bimap L R) (k : L) : Bimap L R × Bool :=
  match findLeft cmpL m k with
  | none => (m, false)
  | some p => ((eraseAtLeft cmpL cmpR m p).1, true)

/-- `bimap::erase_right(right_t const&)` (src/bimap.h:252-259). -/
def eraseRightKey (m : Bimap L R) (k : R) : Bimap L R × Bool :=
  match findRight cmpR m k with
  | none => (m, false)
  | some p => ((eraseAtRight cmpL cmpR m p).1, true)

/-- `bimap::at_left` (src/bimap.h:288-294): find the key on the Left
side; throw `std::out_of_range` if absent, otherwise flip and
dereference.  The method is `const`: it cannot change the container. -/
def atLeft (m : Bimap L R) (k : L) : Except String R :=
  match findLeft cmpL m k with
  | none => .error "bimap::at_left: no element found"
  | some p => .ok p.2

/-- `bimap::at_right` (src/bimap.h:296-302). -/
def atRight (m : Bimap L R) (k : R) : Except String L :=
  match findRight cmpR m k with
  | none => .error "bimap::at_right: no element found"
  | some p => .ok p.1

/-- `bimap::at_left_or_default` (src/bimap.h:309-321), with `dR` the
default-constructed `right_t` value.  If the key is found, flip and
dereference.  Otherwise build the candidate record `(key, dR)`, erase any
pair whose Right key equals the default (`erase_right(u->right)`), run the
coordinated insert, and return the stored default (`u->right`). -/
def atLeftOrDefault (m : Bimap L R) (dR : R) (k : L) : Bimap L R × R :=
  match findLeft cmpL m k with
  | none =>
    let m1 := (eraseRightKey cmpL cmpR m dR).1
    ((insertNode cmpL cmpR m1 (k, dR)).1, dR)
  | some p => (m, p.2)

/-- `bimap::at_right_or_default` (src/bimap.h:323-335), with `dL` the
default-constructed `left_t` value. -/
def atRightOrDefault (m : Bimap L R) (dL : L) (k : R) : Bimap L R × L :=
  match findRight cmpR m k with
  | none =>
    let m1 := (eraseLeftKey cmpL cmpR m dL).1
    ((insertNode cmpL cmpR m1 (dL, k)).1, dL)
  | some p => (m, p.1)

/-- `bimap::iterator::flip` on a Left position (src/bimap.h:137-139 and
`flip_iterator`, src/bimap.h:440-447): the sentinel (`end_left()`) maps to
the other index's sentinel (`end_right()`); a live position maps to the
position of the same record in the Right index, recovered from the same
allocation with no key comparison. -/
def flipLeft (it : Option (L × R)) : Option (L × R) :=
  match it with
  | none => none
  | some p => some p

/-- `bimap::iterator::flip` on a Right position (src/bimap.h:449-456). -/
def flipRight (it : Option (L × R)) : Option (L × R) :=
  match it with
  | none => none
  | some p => some p

/-- `operator==` on bimaps (src/bimap.h:384-398): sizes first, then a
lockstep walk of the two Left-ascending traversals comparing each visited
record with `left_set::equal` on the left values and `right_set::equal`
on the right values (both with `a`'s comparators).  With equal sizes the
two traversals have equal length, so the lockstep walk is the walk over
the zipped traversals. -/
def bimapEq (a b : Bimap L R) : Bool :=
  if a.size ≠ b.size then false
  else
    (List.zip a.leftTree.inorder b.leftTree.inorder).all
      (fun pq => keyEqual cmpL pq.1.1 pq.2.1 && keyEqual cmpR pq.1.2 pq.2.2)

/-- `operator!=` on bimaps (src/bimap.h:400-402). -/
def bimapNe (a b : Bimap L R) : Bool := !bimapEq cmpL cmpR a b

/-- One defined mutating call of the public interface: coordinated insert
or key-based erase on either side. -/
inductive Op (L R : Type) where
  | insert (l : L) (r : R)
  | eraseLeft (k : L)
  | eraseRight (k : R)

/-- Apply one operation to a state, keeping the resulting container. -/
def applyOp (m : Bimap L R) : Op L R → Bimap L R
  | .insert l r => (Bimap.insert cmpL cmpR m l r).1
  | .eraseLeft k => (eraseLeftKey cmpL cmpR m k).1
  | .eraseRight k => (eraseRightKey cmpL cmpR m k).1

/-- The container produced by a sequence of inserts and erases starting
from the empty bimap. -/
def runOps (ops : List (Op L R)) : Bimap L R :=
  ops.foldl (applyOp cmpL cmpR) Bimap.init

end BimapModel

namespace IntrusiveSet

variable {α κ : Type}

/-- The contract a `Comp` template argument must satisfy (the strict weak
order required of `std::less`-style comparators): irreflexive, transitive,
and negatively transitive. -/
structure IsSWO (cmp : κ → κ → Bool) : Prop where
  irrefl : ∀ a, cmp a a = false
  lt_trans : ∀ a b c, cmp a b = true → cmp b c = true → cmp a c = true
  nlt_trans : ∀ a b c, cmp a b = false → cmp b c = false → cmp a c = false

/-- Order-equivalence of two keys: neither is less than the other.  This
is the `Prop` form of `keyEqual` and the equality notion every lookup in
the source uses. -/
def EquivKey (cmp : κ → κ → Bool) (a b : κ) : Prop :=
  cmp a b = false ∧ cmp b a = false

theorem keyEqual_iff (cmp : κ → κ → Bool) (a b : κ) :
    keyEqual cmp a b = true ↔ EquivKey cmp a b := by
  simp [keyEqual, EquivKey]

theorem EquivKey.refl {cmp : κ → κ → Bool} (h : IsSWO cmp) (a : κ) :
    EquivKey cmp a a :=
  ⟨h.irrefl a, h.irrefl a⟩

theorem EquivKey.symm {cmp : κ → κ → Bool} {a b : κ}
    (h : EquivKey cmp a b) : EquivKey cmp b a :=
  ⟨h.2, h.1⟩

theorem IsSWO.asymm {cmp : κ → κ → Bool} (h : IsSWO cmp) {a b : κ}
    (hab : cmp a b = true) : cmp b a = false := by
  cases hba : cmp b a with
  | false => rfl
  | true =>
    have := h.lt_trans a b a hab hba
    rw [h.irrefl a] at this
    exact absurd this (by simp)

/-- `a < b` and `b ≈ c` give `a < c`. -/
theorem IsSWO.lt_of_lt_equiv {cmp : κ → κ → Bool} (h : IsSWO cmp)
    {a b c : κ} (hab : cmp a b = true) (hbc : EquivKey cmp b c) :
    cmp a c = true := by
  cases hac : cmp a c with
  | true => rfl
  | false =>
    have := h.nlt_trans a c b hac hbc.2
    rw [hab] at this
    exact absurd this (by simp)

/-- `a ≈ b` and `b < c` give `a < c`. -/
theorem IsSWO.lt_of_equiv_lt {cmp : κ → κ → Bool} (h : IsSWO cmp)
    {a b c : κ} (hab : EquivKey cmp a b) (hbc : cmp b c = true) :
    cmp a c = true := by
  cases hac : cmp a c with
  | true => rfl
  | false =>
    have := h.nlt_trans b a c hab.2 hac
    rw [hbc] at this
    exact absurd this (by simp)

theorem EquivKey.trans {cmp : κ → κ → Bool} (h : IsSWO cmp) {a b c : κ}
    (hab : EquivKey cmp a b) (hbc : EquivKey cmp b c) : EquivKey cmp a c :=
  ⟨h.nlt_trans a b c hab.1 hbc.1, h.nlt_trans c b a hbc.2 hab.2⟩

/-- The sequence of keys is strictly ascending under the comparator (each
earlier element compares less than each later one). -/
def SortedKeys (cmp : κ → κ → Bool) (key : α → κ) (l : List α) : Prop :=
  List.Pairwise (fun a b => cmp (key a) (key b) = true) l

/-- The search-tree invariant of one `intrusive_set::set` instance: the
in-order traversal is strictly ascending under the set's comparator on
extracted keys. -/
def IsBST (cmp : κ → κ → Bool) (key : α → κ) (t : Tree α) : Prop :=
  SortedKeys cmp key t.inorder

@[simp]
theorem inorder_nil : (Tree.nil : Tree α).inorder = [] := rfl

@[simp]
theorem inorder_node (l : Tree α) (v : α) (r : Tree α) :
    (Tree.node l v r).inorder = l.inorder ++ v :: r.inorder := rfl

theorem find?_split {p : α → Bool} {l : List α} {a : α}
    (h : l.find? p = some a) :
    ∃ l₁ l₂, l = l₁ ++ a :: l₂ ∧ ∀ b ∈ l₁, p b = false := by
  induction l with
  | nil => simp at h
  | cons x xs ih =>
    cases hx : p x with
    | true =>
      rw [List.find?_cons_of_pos _ hx] at h
      exact ⟨[], xs, by simp [(Option.some.injEq _ _).mp h], by simp⟩
    | false =>
      rw [List.find?_cons_of_neg _ (by simp [hx])] at h
      obtain ⟨l₁, l₂, hl, hfail⟩ := ih h
      exact ⟨x :: l₁, l₂, by simp [hl], by
        intro b hb
        rcases List.mem_cons.mp hb with hb | hb
        · exact hb ▸ hx
        · exact hfail b hb⟩

theorem find?_first {p : α → Bool} {l₁ l₂ : List α} {a : α}
    (hfail : ∀ b ∈ l₁, p b = false) (ha : p a = true) :
    (l₁ ++ a :: l₂).find? p = some a := by
  induction l₁ with
  | nil => simpa using List.find?_cons_of_pos l₂ ha
  | cons x xs ih =>
    have hx : p x = false := hfail x (by simp)
    rw [List.cons_append, List.find?_cons_of_neg _ (by simp [hx])]
    exact ih (fun b hb => hfail b (by simp [hb]))

theorem eraseP_append_right_none {p : α → Bool} {l₁ l₂ : List α}
    (h : ∀ b ∈ l₂, p b = false) :
    (l₁ ++ l₂).eraseP p = l₁.eraseP p ++ l₂ := by
  induction l₁ with
  | nil =>
    simp only [List.nil_append, List.eraseP_nil]
    exact List.eraseP_of_forall_not (by intro b hb; simp [h b hb])
  | cons x xs ih =>
    cases hx : p x with
    | true =>
      rw [List.cons_append, List.eraseP_cons_of_pos hx,
        List.eraseP_cons_of_pos hx]
    | false =>
      rw [List.cons_append, List.eraseP_cons_of_neg (by simp [hx]),
        List.eraseP_cons_of_neg (by simp [hx]), List.cons_append, ih]

theorem find?_congr {p q : α → Bool} {l : List α}
    (h : ∀ x ∈ l, p x = q x) : l.find? p = l.find? q := by
  induction l with
  | nil => rfl
  | cons x xs ih =>
    have hx := h x (by simp)
    cases hq : q x with
    | true =>
      rw [List.find?_cons_of_pos _ (hx.trans hq), List.find?_cons_of_pos _ hq]
    | false =>
      rw [List.find?_cons_of_neg _ (by simp [hx, hq]),
        List.find?_cons_of_neg _ (by simp [hq])]
      exact ih (fun b hb => h b (by simp [hb]))

/-- On a list split around `a` whose front part entirely fails `p` and with
`p a` passing, `find?` returns the head of the suffix when `a` itself is
skipped; used for successor computations. -/
theorem find?_after_split {p : α → Bool} {l₁ l₂ : List α} {a : α}
    (hfail : ∀ b ∈ l₁, p b = false) (ha : p a = false)
    (hl₂ : ∀ b ∈ l₂, p b = true) :
    (l₁ ++ a :: l₂).find? p = l₂.head? := by
  induction l₁ with
  | nil =>
    rw [List.nil_append, List.find?_cons_of_neg _ (by simp [ha])]
    cases l₂ with
    | nil => rfl
    | cons y ys => rw [List.find?_cons_of_pos _ (hl₂ y (by simp))]; rfl
  | cons x xs ih =>
    rw [List.cons_append, List.find?_cons_of_neg _ (by simp [hfail x (by simp)])]
    exact ih (fun b hb => hfail b (by simp [hb]))

variable {cmp : κ → κ → Bool} {key : α → κ}

theorem setInsert_node_lt {x v : α} {l r : Tree α}
    (h1 : cmp (key x) (key v) = true) :
    setInsert cmp key x (.node l v r) =
      (.node (setInsert cmp key x l).1 v r, (setInsert cmp key x l).2) := by
  simp [setInsert, h1]

theorem setInsert_node_gt {x v : α} {l r : Tree α}
    (h1 : cmp (key x) (key v) = false) (h2 : cmp (key v) (key x) = true) :
    setInsert cmp key x (.node l v r) =
      (.node l v (setInsert cmp key x r).1, (setInsert cmp key x r).2) := by
  simp [setInsert, h1, h2]

theorem setInsert_node_equiv {x v : α} {l r : Tree α}
    (h1 : cmp (key x) (key v) = false) (h2 : cmp (key v) (key x) = false) :
    setInsert cmp key x (.node l v r) = (.node l v r, false) := by
  simp [setInsert, h1, h2]

theorem setEraseKey_node_lt {k : κ} {v : α} {l r : Tree α}
    (h1 : cmp k (key v) = true) :
    setEraseKey cmp key k (.node l v r) = .node (setEraseKey cmp key k l) v r := by
  simp [setEraseKey, h1]

theorem setEraseKey_node_gt {k : κ} {v : α} {l r : Tree α}
    (h1 : cmp k (key v) = false) (h2 : cmp (key v) k = true) :
    setEraseKey cmp key k (.node l v r) = .node l v (setEraseKey cmp key k r) := by
  simp [setEraseKey, h1, h2]

theorem setEraseKey_node_equiv {k : κ} {v : α} {l r : Tree α}
    (h1 : cmp k (key v) = false) (h2 : cmp (key v) k = false) :
    setEraseKey cmp key k (.node l v r) = unlinkRoot l r := by
  simp [setEraseKey, h1, h2]

theorem lowerBoundGo_node_lt {k : κ} {v : α} {l r : Tree α} {best : Option α}
    (h1 : cmp k (key v) = true) :
    lowerBoundGo cmp key k (.node l v r) best =
      lowerBoundGo cmp key k l (some v) := by
  simp [lowerBoundGo, h1]

theorem lowerBoundGo_node_gt {k : κ} {v : α} {l r : Tree α} {best : Option α}
    (h1 : cmp k (key v) = false) (h2 : cmp (key v) k = true) :
    lowerBoundGo cmp key k (.node l v r) best =
      lowerBoundGo cmp key k r best := by
  simp [lowerBoundGo, h1, h2]

theorem lowerBoundGo_node_equiv {k : κ} {v : α} {l r : Tree α}
    {best : Option α} (h1 : cmp k (key v) = false)
    (h2 : cmp (key v) k = false) :
    lowerBoundGo cmp key k (.node l v r) best = some v := by
  simp [lowerBoundGo, h1, h2]

/-- If `set::insert` returned an existing position (`&(*it) != u`), the
tree is unchanged. -/
theorem setInsert_not_inserted {x : α} {t : Tree α}
    (h : (setInsert cmp key x t).2 = false) : (setInsert cmp key x t).1 = t := by
  induction t with
  | nil => simp [setInsert] at h
  | node l v r ihl ihr =>
    cases h1 : cmp (key x) (key v) with
    | true =>
      rw [setInsert_node_lt h1] at h ⊢
      exact congrArg (fun s => Tree.node s v r) (ihl h)
    | false =>
      cases h2 : cmp (key v) (key x) with
      | true =>
        rw [setInsert_node_gt h1 h2] at h ⊢
        exact congrArg (fun s => Tree.node l v s) (ihr h)
      | false => rw [setInsert_node_equiv h1 h2]

/-- A successful `set::insert` splices the new element into one place of
the in-order sequence, leaving everything else in order. -/
theorem setInsert_inorder {x : α} {t : Tree α}
    (h : (setInsert cmp key x t).2 = true) :
    ∃ l₁ l₂, t.inorder = l₁ ++ l₂ ∧
      ((setInsert cmp key x t).1).inorder = l₁ ++ x :: l₂ := by
  induction t with
  | nil => exact ⟨[], [], by simp, by simp [setInsert]⟩
  | node l v r ihl ihr =>
    cases h1 : cmp (key x) (key v) with
    | true =>
      rw [setInsert_node_lt h1] at h ⊢
      obtain ⟨a, b, hab, hab'⟩ := ihl h
      exact ⟨a, b ++ v :: r.inorder, by simp [hab], by simp [hab']⟩
    | false =>
      cases h2 : cmp (key v) (key x) with
      | true =>
        rw [setInsert_node_gt h1 h2] at h ⊢
        obtain ⟨a, b, hab, hab'⟩ := ihr h
        exact ⟨l.inorder ++ v :: a, b, by simp [hab], by simp [hab']⟩
      | false => rw [setInsert_node_equiv h1 h2] at h; simp at h

/-- Every element of the tree after an insert is an old element or the
inserted one. -/
theorem mem_setInsert {x y : α} {t : Tree α}
    (h : y ∈ ((setInsert cmp key x t).1).inorder) :
    y ∈ t.inorder ∨ y = x := by
  cases hins : (setInsert cmp key x t).2 with
  | false => rw [setInsert_not_inserted hins] at h; exact Or.inl h
  | true =>
    obtain ⟨a, b, hab, hab'⟩ := setInsert_inorder hins
    rw [hab'] at h
    rw [hab]
    rcases List.mem_append.mp h with h | h
    · exact Or.inl (List.mem_append.mpr (Or.inl h))
    · rcases List.mem_cons.mp h with h | h
      · exact Or.inr h
      · exact Or.inl (List.mem_append.mpr (Or.inr h))

/-- `set::insert` preserves the search-tree invariant. -/
theorem IsBST.setInsert_pres (hswo : IsSWO cmp) {x : α} {t : Tree α}
    (hb : IsBST cmp key t) : IsBST cmp key (setInsert cmp key x t).1 := by
  induction t with
  | nil => simp [IsBST, SortedKeys, setInsert]
  | node l v r ihl ihr =>
    rw [IsBST, SortedKeys, inorder_node, List.pairwise_append] at hb
    obtain ⟨hl, hvr, hcross⟩ := hb
    rw [List.pairwise_cons] at hvr
    obtain ⟨hvr1, hr⟩ := hvr
    cases h1 : cmp (key x) (key v) with
    | true =>
      rw [setInsert_node_lt h1]
      rw [IsBST, SortedKeys, inorder_node, List.pairwise_append]
      refine ⟨ihl hl, List.pairwise_cons.mpr ⟨hvr1, hr⟩, ?_⟩
      intro a ha b hb
      rcases mem_setInsert ha with ha | ha
      · exact hcross a ha b hb
      · subst ha
        rcases List.mem_cons.mp hb with hb | hb
        · exact hb ▸ h1
        · exact hswo.lt_trans _ _ _ h1 (hvr1 b hb)
    | false =>
      cases h2 : cmp (key v) (key x) with
      | true =>
        rw [setInsert_node_gt h1 h2]
        rw [IsBST, SortedKeys, inorder_node, List.pairwise_append]
        refine ⟨hl, List.pairwise_cons.mpr ⟨?_, ihr hr⟩, ?_⟩
        · intro b hb
          rcases mem_setInsert hb with hb | hb
          · exact hvr1 b hb
          · exact hb ▸ h2
        · intro a ha b hb
          rcases List.mem_cons.mp hb with hb | hb
          · exact hb ▸ hcross a ha v (by simp)
          · rcases mem_setInsert hb with hb | hb
            · exact hcross a ha b (by simp [hb])
            · subst hb
              exact hswo.lt_trans _ _ _ (hcross a ha v (by simp)) h2
      | false =>
        rw [setInsert_node_equiv h1 h2]
        rw [IsBST, SortedKeys, inorder_node, List.pairwise_append]
        exact ⟨hl, List.pairwise_cons.mpr ⟨hvr1, hr⟩, hcross⟩

/-- Rolling back a successful insert by unlinking the freshly inserted
element restores the tree exactly (`insert_node`'s second failure branch,
src/bimap.h:431-435). -/
theorem setEraseKey_setInsert (hswo : IsSWO cmp) {x : α} {t : Tree α}
    (h : (setInsert cmp key x t).2 = true) :
    setEraseKey cmp key (key x) (setInsert cmp key x t).1 = t := by
  induction t with
  | nil => simp [setInsert, setEraseKey, hswo.irrefl, unlinkRoot]
  | node l v r ihl ihr =>
    cases h1 : cmp (key x) (key v) with
    | true =>
      rw [setInsert_node_lt h1] at h ⊢
      rw [setEraseKey_node_lt h1]
      exact congrArg (fun s => Tree.node s v r) (ihl h)
    | false =>
      cases h2 : cmp (key v) (key x) with
      | true =>
        rw [setInsert_node_gt h1 h2] at h ⊢
        rw [setEraseKey_node_gt h1 h2]
        exact congrArg (fun s => Tree.node l v s) (ihr h)
      | false => rw [setInsert_node_equiv h1 h2] at h; simp at h

/-- If `set::insert` found a key collision, the tree held an element
order-equivalent to the candidate's key. -/
theorem equiv_mem_of_setInsert_false {x : α} {t : Tree α}
    (h : (setInsert cmp key x t).2 = false) :
    ∃ y ∈ t.inorder, EquivKey cmp (key y) (key x) := by
  induction t with
  | nil => simp [setInsert] at h
  | node l v r ihl ihr =>
    cases h1 : cmp (key x) (key v) with
    | true =>
      rw [setInsert_node_lt h1] at h
      obtain ⟨y, hy, hyeq⟩ := ihl h
      exact ⟨y, by simp [hy], hyeq⟩
    | false =>
      cases h2 : cmp (key v) (key x) with
      | true =>
        rw [setInsert_node_gt h1 h2] at h
        obtain ⟨y, hy, hyeq⟩ := ihr h
        exact ⟨y, by simp [hy], hyeq⟩
      | false => exact ⟨v, by simp, h2, h1⟩

/-- On a valid search tree, `set::insert` reports a collision whenever an
order-equivalent key is already present. -/
theorem setInsert_false_of_equiv_mem (hswo : IsSWO cmp) {x y : α}
    {t : Tree α} (hb : IsBST cmp key t) (hy : y ∈ t.inorder)
    (heq : EquivKey cmp (key y) (key x)) :
    (setInsert cmp key x t).2 = false := by
  induction t with
  | nil => simp at hy
  | node l v r ihl ihr =>
    rw [IsBST, SortedKeys, inorder_node, List.pairwise_append] at hb
    obtain ⟨hl, hvr, hcross⟩ := hb
    rw [List.pairwise_cons] at hvr
    obtain ⟨hvr1, hr⟩ := hvr
    rw [inorder_node] at hy
    cases h1 : cmp (key x) (key v) with
    | true =>
      rw [setInsert_node_lt h1]
      rcases List.mem_append.mp hy with hy | hy
      · exact ihl hl hy
      · rcases List.mem_cons.mp hy with hy | hy
        · rw [← hy] at h1
          rw [heq.2] at h1
          exact Bool.noConfusion h1
        · have h3 := hswo.lt_trans _ _ _ h1 (hvr1 y hy)
          rw [heq.2] at h3
          exact Bool.noConfusion h3
    | false =>
      cases h2 : cmp (key v) (key x) with
      | true =>
        rw [setInsert_node_gt h1 h2]
        rcases List.mem_append.mp hy with hy | hy
        · have h3 := hswo.lt_trans _ _ _ (hcross y hy v (by simp)) h2
          rw [heq.1] at h3
          exact Bool.noConfusion h3
        · rcases List.mem_cons.mp hy with hy | hy
          · rw [← hy] at h2
            rw [heq.1] at h2
            exact Bool.noConfusion h2
          · exact ihr hr hy
      | false => rw [setInsert_node_equiv h1 h2]

/-- `delMinNe` removes exactly the head of the in-order sequence. -/
theorem delMinNe_inorder (l : Tree α) (v : α) (r : Tree α) :
    (delMinNe l v r).1 :: (delMinNe l v r).2.inorder =
      (Tree.node l v r).inorder := by
  induction l generalizing v r with
  | nil => simp [delMinNe]
  | node ll lv lr ihl ihr =>
    have hmin := ihl lv lr
    simp only [delMinNe, inorder_node]
    rw [← List.cons_append, hmin]
    simp

/-- Unlinking the root concatenates the subtraversals: the in-order
sequence loses exactly the removed node. -/
theorem unlinkRoot_inorder (l r : Tree α) :
    (unlinkRoot l r).inorder = l.inorder ++ r.inorder := by
  cases l with
  | nil => simp [unlinkRoot]
  | node ll lv lr => cases r with
    | nil => simp [unlinkRoot]
    | node rl rv rr =>
      show (Tree.node (Tree.node ll lv lr) (delMinNe rl rv rr).1
          (delMinNe rl rv rr).2).inorder = _
      rw [inorder_node, delMinNe_inorder rl rv rr]

/-- On a valid search tree, erasing by a key removes exactly the first
(hence unique) order-equivalent element of the in-order sequence. -/
theorem setEraseKey_inorder (hswo : IsSWO cmp) {k : κ} {t : Tree α}
    (hb : IsBST cmp key t) :
    (setEraseKey cmp key k t).inorder =
      t.inorder.eraseP (fun v => keyEqual cmp (key v) k) := by
  induction t with
  | nil => simp [setEraseKey]
  | node l v r ihl ihr =>
    rw [IsBST, SortedKeys, inorder_node, List.pairwise_append] at hb
    obtain ⟨hl, hvr, hcross⟩ := hb
    rw [List.pairwise_cons] at hvr
    obtain ⟨hvr1, hr⟩ := hvr
    cases h1 : cmp k (key v) with
    | true =>
      rw [setEraseKey_node_lt h1, inorder_node, inorder_node, ihl hl]
      have hnone : ∀ b ∈ v :: r.inorder, keyEqual cmp (key b) k = false := by
        intro b hb
        rcases List.mem_cons.mp hb with hb | hb
        · subst hb
          simp [keyEqual, h1]
        · have h3 := hswo.lt_trans _ _ _ h1 (hvr1 b hb)
          simp [keyEqual, h3]
      rw [eraseP_append_right_none hnone]
    | false =>
      cases h2 : cmp (key v) k with
      | true =>
        rw [setEraseKey_node_gt h1 h2, inorder_node, inorder_node, ihr hr]
        have hfailL : ∀ b ∈ l.inorder,
            ¬ (keyEqual cmp (key b) k = true) := by
          intro b hb hkb
          rw [keyEqual_iff] at hkb
          have h3 := hswo.lt_trans _ _ _ (hcross b hb v (by simp)) h2
          rw [hkb.1] at h3
          exact Bool.noConfusion h3
        rw [List.eraseP_append_right _ hfailL,
          List.eraseP_cons_of_neg (by simp [keyEqual, h2])]
      | false =>
        rw [setEraseKey_node_equiv h1 h2, unlinkRoot_inorder, inorder_node]
        have hfailL : ∀ b ∈ l.inorder,
            ¬ (keyEqual cmp (key b) k = true) := by
          intro b hb hkb
          rw [keyEqual_iff] at hkb
          have h3 := hswo.lt_of_lt_equiv (hcross b hb v (by simp)) ⟨h2, h1⟩
          rw [hkb.1] at h3
          exact Bool.noConfusion h3
        rw [List.eraseP_append_right _ hfailL,
          List.eraseP_cons_of_pos (by rw [keyEqual_iff]; exact ⟨h2, h1⟩)]

/-- Erasure never grows the traversal: its result is a sub-sequence. -/
theorem IsBST.setEraseKey_pres (hswo : IsSWO cmp) {k : κ} {t : Tree α}
    (hb : IsBST cmp key t) : IsBST cmp key (setEraseKey cmp key k t) := by
  rw [IsBST, SortedKeys, setEraseKey_inorder hswo hb]
  exact hb.sublist (List.eraseP_sublist _)

/-- The descent loop of `lower_bound` returns the first in-order element
whose key is not less than the target, falling back to the accumulated
candidate. -/
theorem lowerBoundGo_spec (hswo : IsSWO cmp) {k : κ} {t : Tree α}
    (hb : IsBST cmp key t) (best : Option α) :
    lowerBoundGo cmp key k t best =
      (t.inorder.find? (fun v => !cmp (key v) k)).or best := by
  induction t generalizing best with
  | nil => simp [lowerBoundGo]
  | node l v r ihl ihr =>
    rw [IsBST, SortedKeys, inorder_node, List.pairwise_append] at hb
    obtain ⟨hl, hvr, hcross⟩ := hb
    rw [List.pairwise_cons] at hvr
    obtain ⟨hvr1, hr⟩ := hvr
    cases h1 : cmp k (key v) with
    | true =>
      rw [lowerBoundGo_node_lt h1, ihl hl (some v), inorder_node,
        List.find?_append, List.find?_cons_of_pos _ (by simp [hswo.asymm h1])]
      cases hf : l.inorder.find? (fun v => !cmp (key v) k) <;> simp [hf]
    | false =>
      cases h2 : cmp (key v) k with
      | true =>
        have hfl : l.inorder.find? (fun v => !cmp (key v) k) = none := by
          refine List.find?_eq_none.mpr (fun b hb => ?_)
          simp [hswo.lt_trans _ _ _ (hcross b hb v (by simp)) h2]
        rw [lowerBoundGo_node_gt h1 h2, ihr hr best, inorder_node,
          List.find?_append, hfl, List.find?_cons_of_neg _ (by simp [h2])]
        simp
      | false =>
        have hfl : l.inorder.find? (fun v => !cmp (key v) k) = none := by
          refine List.find?_eq_none.mpr (fun b hb => ?_)
          simp [hswo.lt_of_lt_equiv (hcross b hb v (by simp)) ⟨h2, h1⟩]
        rw [lowerBoundGo_node_equiv h1 h2, inorder_node, List.find?_append,
          hfl, List.find?_cons_of_pos _ (by simp [h2])]
        simp

/-- `lower_bound` returns the first element whose key is not less than
the target key, or `end` when every key is less. -/
theorem setLowerBound_spec (hswo : IsSWO cmp) {k : κ} {t : Tree α}
    (hb : IsBST cmp key t) :
    setLowerBound cmp key k t =
      t.inorder.find? (fun v => !cmp (key v) k) := by
  rw [setLowerBound, lowerBoundGo_spec hswo hb, Option.or_none]

/-- `find` returns the first (hence, the tree being duplicate-free, the
unique) element whose key is order-equivalent to the target key, or `end`
when there is none. -/
theorem setFind_spec (hswo : IsSWO cmp) {k : κ} {t : Tree α}
    (hb : IsBST cmp key t) :
    setFind cmp key k t =
      t.inorder.find? (fun v => keyEqual cmp (key v) k) := by
  have hlb := setLowerBound_spec (k := k) hswo hb
  rw [IsBST, SortedKeys] at hb
  simp only [setFind]
  rw [hlb]
  cases hf : t.inorder.find? (fun v => !cmp (key v) k) with
  | none =>
    have hall := List.find?_eq_none.mp hf
    refine (List.find?_eq_none.mpr (fun y hy => ?_)).symm
    have hc : cmp (key y) k = true := by simpa using hall y hy
    simp [keyEqual, hc]
  | some v =>
    obtain ⟨l₁, l₂, hsp, hfail⟩ := find?_split hf
    have hvmem : v ∈ t.inorder := by rw [hsp]; simp
    have hvk : cmp (key v) k = false := by
      simpa using List.find?_some hf
    cases hkv : cmp k (key v) with
    | true =>
      simp only [hkv, if_pos]
      rw [hsp] at hb ⊢
      rw [List.pairwise_append] at hb
      refine (List.find?_eq_none.mpr (fun y hy => ?_)).symm
      rcases List.mem_append.mp hy with hy | hy
      · have hc : cmp (key y) k = true := by simpa using hfail y hy
        simp [keyEqual, hc]
      · rcases List.mem_cons.mp hy with hy | hy
        · subst hy; simp [keyEqual, hkv]
        · have hvy := (List.pairwise_cons.mp hb.2.1).1 y hy
          have hc := hswo.lt_trans _ _ _ hkv hvy
          simp [keyEqual, hc]
    | false =>
      simp only [hkv, if_neg, Bool.false_eq_true, if_false]
      rw [hsp]
      refine (find?_first (fun b hb => ?_) ?_).symm
      · have hc : cmp (key b) k = true := by simpa using hfail b hb
        simp [keyEqual, hc]
      · simp [keyEqual, hvk, hkv]

/-- `upper_bound` returns the first element whose key is strictly greater
than the target key (the position just after any order-equivalent match),
or `end` when there is none. -/
theorem setUpperBound_spec (hswo : IsSWO cmp) {k : κ} {t : Tree α}
    (hb : IsBST cmp key t) :
    setUpperBound cmp key k t =
      t.inorder.find? (fun v => cmp k (key v)) := by
  have hlb := setLowerBound_spec (k := k) hswo hb
  rw [IsBST, SortedKeys] at hb
  simp only [setUpperBound]
  rw [hlb]
  cases hf : t.inorder.find? (fun v => !cmp (key v) k) with
  | none =>
    have hall := List.find?_eq_none.mp hf
    refine (List.find?_eq_none.mpr (fun y hy => ?_)).symm
    have hc : cmp (key y) k = true := by simpa using hall y hy
    simp [hswo.asymm hc]
  | some v =>
    obtain ⟨l₁, l₂, hsp, hfail⟩ := find?_split hf
    have hvk : cmp (key v) k = false := by
      simpa using List.find?_some hf
    cases hkv : cmp k (key v) with
    | true =>
      simp only [hkv, if_pos]
      rw [hsp]
      refine (find?_first (fun b hb => ?_) ?_).symm
      · have hc : cmp (key b) k = true := by simpa using hfail b hb
        simp [hswo.asymm hc]
      · exact hkv
    | false =>
      simp only [hkv, if_neg, Bool.false_eq_true, if_false]
      rw [succFrom, hsp]
      rw [hsp, List.pairwise_append] at hb
      obtain ⟨hb1, hb2, hbcross⟩ := hb
      have hveq : EquivKey cmp (key v) k := ⟨hvk, hkv⟩
      refine find?_congr (fun y hy => ?_)
      rcases List.mem_append.mp hy with hy | hy
      · have hyk : cmp (key y) k = true := by simpa using hfail y hy
        have h4 : cmp (key v) (key y) = false := by
          cases h5 : cmp (key v) (key y) with
          | false => rfl
          | true =>
            have h6 := hswo.lt_of_equiv_lt hveq.symm h5
            have h7 := hswo.asymm h6
            rw [hyk] at h7
            exact Bool.noConfusion h7
        have h8 : cmp k (key y) = false := by
          cases h9 : cmp k (key y) with
          | false => rfl
          | true =>
            have h10 := hswo.lt_of_equiv_lt hveq h9
            rw [h4] at h10
            exact Bool.noConfusion h10
        rw [h4, h8]
      · rcases List.mem_cons.mp hy with hy | hy
        · subst hy
          rw [hswo.irrefl, hkv]
        · have hvy := (List.pairwise_cons.mp hb2).1 y hy
          rw [hvy, hswo.lt_of_equiv_lt hveq.symm hvy]

/-- In a strictly ascending sequence, looking up any member by an
order-equivalent key finds exactly that member. -/
theorem sorted_find?_equiv (hswo : IsSWO cmp) {l : List α}
    (hs : SortedKeys cmp key l) {x : α} (hx : x ∈ l) {k : κ}
    (heq : EquivKey cmp (key x) k) :
    l.find? (fun v => keyEqual cmp (key v) k) = some x := by
  obtain ⟨l₁, l₂, rfl⟩ := List.append_of_mem hx
  rw [SortedKeys, List.pairwise_append] at hs
  refine find?_first (fun b hb => ?_) ?_
  · have hbx := hs.2.2 b hb x (by simp)
    have hc := hswo.lt_of_lt_equiv hbx heq
    simp [keyEqual, hc]
  · simp [keyEqual, heq.1, heq.2]

/-- In a strictly ascending sequence split around a member `x` that is
order-equivalent to `k`, erasing the first element order-equivalent to `k`
removes exactly `x`. -/
theorem sorted_eraseP_split (hswo : IsSWO cmp) {l₁ l₂ : List α} {x : α}
    (hs : SortedKeys cmp key (l₁ ++ x :: l₂)) {k : κ}
    (heq : EquivKey cmp (key x) k) :
    (l₁ ++ x :: l₂).eraseP (fun v => keyEqual cmp (key v) k) = l₁ ++ l₂ := by
  rw [SortedKeys, List.pairwise_append] at hs
  rw [List.eraseP_append_right _ (fun b hb => ?_),
    List.eraseP_cons_of_pos (by rw [keyEqual_iff]; exact heq)]
  intro hkb
  rw [keyEqual_iff] at hkb
  have hbx := hs.2.2 b hb x (by simp)
  have hc := hswo.lt_of_lt_equiv hbx heq
  rw [hkb.1] at hc
  exact Bool.noConfusion hc

/-- In a strictly ascending sequence split around `x`, the first element
with key strictly greater than `x`'s is the head of the suffix: the
in-order successor of `x`. -/
theorem sorted_find?_gt_split (hswo : IsSWO cmp) {l₁ l₂ : List α} {x : α}
    (hs : SortedKeys cmp key (l₁ ++ x :: l₂)) :
    (l₁ ++ x :: l₂).find? (fun v => cmp (key x) (key v)) = l₂.head? := by
  rw [SortedKeys, List.pairwise_append] at hs
  refine find?_after_split (fun b hb => ?_) (hswo.irrefl _) (fun b hb => ?_)
  · exact hswo.asymm (hs.2.2 b hb x (by simp))
  · exact (List.pairwise_cons.mp hs.2.1).1 b hb

end IntrusiveSet


namespace BimapModel

open IntrusiveSet

variable {L R : Type} (cmpL : L → L → Bool) (cmpR : R → R → Bool)

/-- The state invariant every reachable bimap satisfies: both indices are
valid search trees, they hold the same records, and `m_size` counts
them. -/
def WF (m : Bimap L R) : Prop :=
  IsBST cmpL Prod.fst m.leftTree ∧ IsBST cmpR Prod.snd m.rightTree ∧
    List.Perm m.leftTree.inorder m.rightTree.inorder ∧
    m.m_size = m.leftTree.inorder.length

theorem WF_init : WF cmpL cmpR (Bimap.init : Bimap L R) :=
  ⟨List.Pairwise.nil, List.Pairwise.nil, List.Perm.refl _, rfl⟩

theorem insertNode_of_left_coll {m : Bimap L R} {u : L × R}
    (h : (setInsert cmpL Prod.fst u m.leftTree).2 = false) :
    insertNode cmpL cmpR m u = (m, none) := by
  obtain ⟨lt, rt, s⟩ := m
  have h1 := setInsert_not_inserted h
  simp [insertNode, h, h1]

theorem insertNode_of_right_coll (hL : IsSWO cmpL) {m : Bimap L R}
    {u : L × R} (h1 : (setInsert cmpL Prod.fst u m.leftTree).2 = true)
    (h2 : (setInsert cmpR Prod.snd u m.rightTree).2 = false) :
    insertNode cmpL cmpR m u = (m, none) := by
  obtain ⟨lt, rt, s⟩ := m
  have h3 := setInsert_not_inserted h2
  have h4 := setEraseKey_setInsert hL h1
  simp [insertNode, h1, h2, h3, h4]

theorem insertNode_success {m : Bimap L R} {u : L × R}
    (h1 : (setInsert cmpL Prod.fst u m.leftTree).2 = true)
    (h2 : (setInsert cmpR Prod.snd u m.rightTree).2 = true) :
    insertNode cmpL cmpR m u =
      (⟨(setInsert cmpL Prod.fst u m.leftTree).1,
        (setInsert cmpR Prod.snd u m.rightTree).1, m.m_size + 1⟩, some u) := by
  simp [insertNode, h1, h2]

theorem WF.insertNode_pres (hL : IsSWO cmpL) (hR : IsSWO cmpR)
    {m : Bimap L R} (hw : WF cmpL cmpR m) (u : L × R) :
    WF cmpL cmpR (insertNode cmpL cmpR m u).1 := by
  obtain ⟨hbl, hbr, hperm, hsize⟩ := hw
  cases h1 : (setInsert cmpL Prod.fst u m.leftTree).2 with
  | false =>
    rw [insertNode_of_left_coll cmpL cmpR h1]
    exact ⟨hbl, hbr, hperm, hsize⟩
  | true =>
    cases h2 : (setInsert cmpR Prod.snd u m.rightTree).2 with
    | false =>
      rw [insertNode_of_right_coll cmpL cmpR hL h1 h2]
      exact ⟨hbl, hbr, hperm, hsize⟩
    | true =>
      obtain ⟨a, b, hab, hab'⟩ := setInsert_inorder h1
      obtain ⟨c, d, hcd, hcd'⟩ := setInsert_inorder h2
      rw [insertNode_success cmpL cmpR h1 h2]
      refine ⟨hbl.setInsert_pres hL, hbr.setInsert_pres hR, ?_, ?_⟩
      · show List.Perm (setInsert cmpL Prod.fst u m.leftTree).1.inorder
          (setInsert cmpR Prod.snd u m.rightTree).1.inorder
        rw [hab', hcd']
        have hp : List.Perm (a ++ b) (c ++ d) := by
          rw [← hab, ← hcd]; exact hperm
        exact List.perm_middle.trans ((hp.cons u).trans List.perm_middle.symm)
      · show m.m_size + 1 =
          (setInsert cmpL Prod.fst u m.leftTree).1.inorder.length
        rw [hab', hsize, hab]
        simp only [List.length_append, List.length_cons]
        omega

theorem WF.eraseAtLeft_pres (hL : IsSWO cmpL) (hR : IsSWO cmpR)
    {m : Bimap L R} (hw : WF cmpL cmpR m) {p : L × R}
    (hp : p ∈ m.leftTree.inorder) :
    WF cmpL cmpR (eraseAtLeft cmpL cmpR m p).1 := by
  obtain ⟨hbl, hbr, hperm, hsize⟩ := hw
  have hpr : p ∈ m.rightTree.inorder := hperm.mem_iff.mp hp
  obtain ⟨l₁, l₂, hsp⟩ := List.append_of_mem hp
  obtain ⟨r₁, r₂, hspr⟩ := List.append_of_mem hpr
  have hleft : (setEraseKey cmpL Prod.fst p.1 m.leftTree).inorder = l₁ ++ l₂ := by
    rw [setEraseKey_inorder hL hbl, hsp]
    exact sorted_eraseP_split hL (hsp ▸ hbl) (EquivKey.refl hL p.1)
  have hright : (setEraseKey cmpR Prod.snd p.2 m.rightTree).inorder = r₁ ++ r₂ := by
    rw [setEraseKey_inorder hR hbr, hspr]
    exact sorted_eraseP_split hR (hspr ▸ hbr) (EquivKey.refl hR p.2)
  refine ⟨hbl.setEraseKey_pres hL, hbr.setEraseKey_pres hR, ?_, ?_⟩
  · show List.Perm (setEraseKey cmpL Prod.fst p.1 m.leftTree).inorder
      (setEraseKey cmpR Prod.snd p.2 m.rightTree).inorder
    rw [hleft, hright]
    have hch : List.Perm (l₁ ++ p :: l₂) (r₁ ++ p :: r₂) := by
      rw [← hsp, ← hspr]; exact hperm
    exact (List.perm_middle.symm.trans (hch.trans List.perm_middle)).cons_inv
  · show m.m_size - 1 = (setEraseKey cmpL Prod.fst p.1 m.leftTree).inorder.length
    rw [hleft, hsize, hsp]
    simp only [List.length_append, List.length_cons]
    omega

theorem WF.eraseAtRight_pres (hL : IsSWO cmpL) (hR : IsSWO cmpR)
    {m : Bimap L R} (hw : WF cmpL cmpR m) {p : L × R}
    (hp : p ∈ m.rightTree.inorder) :
    WF cmpL cmpR (eraseAtRight cmpL cmpR m p).1 := by
  obtain ⟨hbl, hbr, hperm, hsize⟩ := hw
  have hpl : p ∈ m.leftTree.inorder := hperm.mem_iff.mpr hp
  obtain ⟨l₁, l₂, hsp⟩ := List.append_of_mem hpl
  obtain ⟨r₁, r₂, hspr⟩ := List.append_of_mem hp
  have hleft : (setEraseKey cmpL Prod.fst p.1 m.leftTree).inorder = l₁ ++ l₂ := by
    rw [setEraseKey_inorder hL hbl, hsp]
    exact sorted_eraseP_split hL (hsp ▸ hbl) (EquivKey.refl hL p.1)
  have hright : (setEraseKey cmpR Prod.snd p.2 m.rightTree).inorder = r₁ ++ r₂ := by
    rw [setEraseKey_inorder hR hbr, hspr]
    exact sorted_eraseP_split hR (hspr ▸ hbr) (EquivKey.refl hR p.2)
  refine ⟨hbl.setEraseKey_pres hL, hbr.setEraseKey_pres hR, ?_, ?_⟩
  · show List.Perm (setEraseKey cmpL Prod.fst p.1 m.leftTree).inorder
      (setEraseKey cmpR Prod.snd p.2 m.rightTree).inorder
    rw [hleft, hright]
    have hch : List.Perm (l₁ ++ p :: l₂) (r₁ ++ p :: r₂) := by
      rw [← hsp, ← hspr]; exact hperm
    exact (List.perm_middle.symm.trans (hch.trans List.perm_middle)).cons_inv
  · show m.m_size - 1 = (setEraseKey cmpL Prod.fst p.1 m.leftTree).inorder.length
    rw [hleft, hsize, hsp]
    simp only [List.length_append, List.length_cons]
    omega

theorem WF.eraseLeftKey_pres (hL : IsSWO cmpL) (hR : IsSWO cmpR)
    {m : Bimap L R} (hw : WF cmpL cmpR m) (k : L) :
    WF cmpL cmpR (eraseLeftKey cmpL cmpR m k).1 := by
  cases hf : findLeft cmpL m k with
  | none => simpa [eraseLeftKey, hf] using hw
  | some p =>
    have hmem : p ∈ m.leftTree.inorder := by
      rw [findLeft, setFind_spec hL hw.1] at hf
      exact List.mem_of_find?_eq_some hf
    simp only [eraseLeftKey, hf]
    exact WF.eraseAtLeft_pres cmpL cmpR hL hR hw hmem

theorem WF.eraseRightKey_pres (hL : IsSWO cmpL) (hR : IsSWO cmpR)
    {m : Bimap L R} (hw : WF cmpL cmpR m) (k : R) :
    WF cmpL cmpR (eraseRightKey cmpL cmpR m k).1 := by
  cases hf : findRight cmpR m k with
  | none => simpa [eraseRightKey, hf] using hw
  | some p =>
    have hmem : p ∈ m.rightTree.inorder := by
      rw [findRight, setFind_spec hR hw.2.1] at hf
      exact List.mem_of_find?_eq_some hf
    simp only [eraseRightKey, hf]
    exact WF.eraseAtRight_pres cmpL cmpR hL hR hw hmem

theorem WF.applyOp_pres (hL : IsSWO cmpL) (hR : IsSWO cmpR)
    {m : Bimap L R} (hw : WF cmpL cmpR m) (op : Op L R) :
    WF cmpL cmpR (applyOp cmpL cmpR m op) := by
  cases op with
  | insert l r => exact WF.insertNode_pres cmpL cmpR hL hR hw (l, r)
  | eraseLeft k => exact WF.eraseLeftKey_pres cmpL cmpR hL hR hw k
  | eraseRight k => exact WF.eraseRightKey_pres cmpL cmpR hL hR hw k

theorem WF.foldl_pres (hL : IsSWO cmpL) (hR : IsSWO cmpR) :
    ∀ (ops : List (Op L R)) (m : Bimap L R), WF cmpL cmpR m →
      WF cmpL cmpR (ops.foldl (applyOp cmpL cmpR) m)
  | [], _, hw => hw
  | op :: ops, m, hw =>
    WF.foldl_pres hL hR ops _ (WF.applyOp_pres cmpL cmpR hL hR hw op)

theorem WF.runOps_wf (hL : IsSWO cmpL) (hR : IsSWO cmpR)
    (ops : List (Op L R)) : WF cmpL cmpR (runOps cmpL cmpR ops) :=
  WF.foldl_pres cmpL cmpR hL hR ops Bimap.init (WF_init cmpL cmpR)

end BimapModel

namespace IntrusiveSet

variable {α κ : Type} {cmp : κ → κ → Bool} {key : α → κ}

theorem setFind_none_of_no_equiv (hswo : IsSWO cmp) {t : Tree α}
    (hb : IsBST cmp key t) {k : κ}
    (h : ∀ y ∈ t.inorder, ¬ EquivKey cmp (key y) k) :
    setFind cmp key k t = none := by
  rw [setFind_spec hswo hb]
  refine List.find?_eq_none.mpr (fun y hy => ?_)
  rw [Bool.not_eq_true, keyEqual]
  have h1 := h y hy
  rw [EquivKey] at h1
  cases hc : cmp (key y) k with
  | true => simp
  | false =>
    cases hc2 : cmp k (key y) with
    | true => simp
    | false => exact absurd ⟨hc, hc2⟩ h1

/-- Once the unique order-equivalent element is cut out of a strictly
ascending sequence, no element order-equivalent to that key remains. -/
theorem no_equiv_in_rest (hswo : IsSWO cmp) {l₁ l₂ : List α} {x : α}
    (hs : SortedKeys cmp key (l₁ ++ x :: l₂)) {k : κ}
    (heq : EquivKey cmp (key x) k) :
    ∀ y ∈ l₁ ++ l₂, ¬ EquivKey cmp (key y) k := by
  rw [SortedKeys, List.pairwise_append] at hs
  intro y hy hyk
  rcases List.mem_append.mp hy with hy | hy
  · have hyx := hs.2.2 y hy x (by simp)
    have hc := hswo.lt_of_lt_equiv hyx heq
    rw [hyk.1] at hc
    exact Bool.noConfusion hc
  · have hxy := (List.pairwise_cons.mp hs.2.1).1 y hy
    have hc := hswo.lt_of_equiv_lt heq.symm hxy
    rw [hyk.2] at hc
    exact Bool.noConfusion hc

end IntrusiveSet

namespace BimapModel

open IntrusiveSet

variable {L R : Type} (cmpL : L → L → Bool) (cmpR : R → R → Bool)

theorem findLeft_spec (hL : IsSWO cmpL) {m : Bimap L R}
    (hb : IsBST cmpL Prod.fst m.leftTree) (k : L) :
    findLeft cmpL m k =
      m.leftTree.inorder.find? (fun p => keyEqual cmpL p.1 k) :=
  setFind_spec hL hb

theorem findRight_spec (hR : IsSWO cmpR) {m : Bimap L R}
    (hb : IsBST cmpR Prod.snd m.rightTree) (k : R) :
    findRight cmpR m k =
      m.rightTree.inorder.find? (fun p => keyEqual cmpR p.2 k) :=
  setFind_spec hR hb

theorem findLeft_none_iff (hL : IsSWO cmpL) {m : Bimap L R}
    (hb : IsBST cmpL Prod.fst m.leftTree) (k : L) :
    findLeft cmpL m k = none ↔
      ∀ p ∈ m.leftTree.inorder, ¬ EquivKey cmpL p.1 k := by
  rw [findLeft_spec cmpL hL hb, List.find?_eq_none]
  simp only [Bool.not_eq_true, ← keyEqual_iff]

theorem findRight_none_iff (hR : IsSWO cmpR) {m : Bimap L R}
    (hb : IsBST cmpR Prod.snd m.rightTree) (k : R) :
    findRight cmpR m k = none ↔
      ∀ p ∈ m.rightTree.inorder, ¬ EquivKey cmpR p.2 k := by
  rw [findRight_spec cmpR hR hb, List.find?_eq_none]
  simp only [Bool.not_eq_true, ← keyEqual_iff]

theorem findLeft_some_facts {m : Bimap L R} {k : L} {p : L × R}
    (hL : IsSWO cmpL) (hb : IsBST cmpL Prod.fst m.leftTree)
    (h : findLeft cmpL m k = some p) :
    p ∈ m.leftTree.inorder ∧ EquivKey cmpL p.1 k := by
  rw [findLeft_spec cmpL hL hb] at h
  have h2 := List.find?_some h
  exact ⟨List.mem_of_find?_eq_some h,
    (keyEqual_iff _ _ _).mp (by simpa using h2)⟩

theorem findRight_some_facts {m : Bimap L R} {k : R} {p : L × R}
    (hR : IsSWO cmpR) (hb : IsBST cmpR Prod.snd m.rightTree)
    (h : findRight cmpR m k = some p) :
    p ∈ m.rightTree.inorder ∧ EquivKey cmpR p.2 k := by
  rw [findRight_spec cmpR hR hb] at h
  have h2 := List.find?_some h
  exact ⟨List.mem_of_find?_eq_some h,
    (keyEqual_iff _ _ _).mp (by simpa using h2)⟩

theorem findLeft_of_mem (hL : IsSWO cmpL) {m : Bimap L R}
    (hb : IsBST cmpL Prod.fst m.leftTree) {p : L × R} {k : L}
    (hp : p ∈ m.leftTree.inorder) (heq : EquivKey cmpL p.1 k) :
    findLeft cmpL m k = some p := by
  rw [findLeft_spec cmpL hL hb]
  exact sorted_find?_equiv hL hb hp heq

theorem findRight_of_mem (hR : IsSWO cmpR) {m : Bimap L R}
    (hb : IsBST cmpR Prod.snd m.rightTree) {p : L × R} {k : R}
    (hp : p ∈ m.rightTree.inorder) (heq : EquivKey cmpR p.2 k) :
    findRight cmpR m k = some p := by
  rw [findRight_spec cmpR hR hb]
  exact sorted_find?_equiv hR hb hp heq

/-- When neither key has an order-equivalent occupant, both registrations
of the coordinated insert splice the candidate in. -/
theorem insert_both_new {m : Bimap L R} {u : L × R}
    (h1 : ∀ p ∈ m.leftTree.inorder, ¬ EquivKey cmpL p.1 u.1)
    (h2 : ∀ p ∈ m.rightTree.inorder, ¬ EquivKey cmpR p.2 u.2) :
    (setInsert cmpL Prod.fst u m.leftTree).2 = true ∧
      (setInsert cmpR Prod.snd u m.rightTree).2 = true := by
  constructor
  · cases hc : (setInsert cmpL Prod.fst u m.leftTree).2 with
    | true => rfl
    | false =>
      obtain ⟨y, hy, hyeq⟩ := equiv_mem_of_setInsert_false hc
      exact absurd hyeq (h1 y hy)
  · cases hc : (setInsert cmpR Prod.snd u m.rightTree).2 with
    | true => rfl
    | false =>
      obtain ⟨y, hy, hyeq⟩ := equiv_mem_of_setInsert_false hc
      exact absurd hyeq (h2 y hy)

end BimapModel

namespace BimapModel

open IntrusiveSet

variable {L R : Type} (cmpL : L → L → Bool) (cmpR : R → R → Bool)

instance {κ : Type} (cmp : κ → κ → Bool) (a b : κ) :
    Decidable (EquivKey cmp a b) := by
  unfold EquivKey; infer_instance

instance {α κ : Type} (cmp : κ → κ → Bool) (key : α → κ) (l : List α) :
    Decidable (SortedKeys cmp key l) := by
  unfold SortedKeys; infer_instance

instance {α κ : Type} (cmp : κ → κ → Bool) (key : α → κ)
    (t : IntrusiveSet.Tree α) : Decidable (IsBST cmp key t) := by
  unfold IsBST; infer_instance

instance [DecidableEq L] [DecidableEq R] (m : Bimap L R) :
    Decidable (WF cmpL cmpR m) := by
  unfold WF; infer_instance

/-- `std::less<unsigned>` as a Bool-valued comparator, for the concrete
instantiations below. -/
def natLt (a b : Nat) : Bool := decide (a < b)

theorem isSWO_natLt : IsSWO natLt := by
  refine ⟨?_, ?_, ?_⟩
  · intro a; simp [natLt]
  · intro a b c h1 h2; simp only [natLt, decide_eq_true_eq] at *; omega
  · intro a b c h1 h2; simp only [natLt, decide_eq_false_iff_not] at *; omega

/-- A two-pair `bimap<unsigned, unsigned>` holding (1,10) and (2,20),
used as a concrete state in the witnesses. -/
def demoBimap : Bimap Nat Nat :=
  ⟨.node (.node .nil (1, 10) .nil) (2, 20) .nil,
   .node (.node .nil (1, 10) .nil) (2, 20) .nil, 2⟩

/-- C3: after any sequence of inserts and erases starting from the empty
bimap, the in-order traversal from `begin_left()` to `end_left()` is
strictly increasing under the Left comparator, and the traversal from
`begin_right()` to `end_right()` is strictly increasing under the Right
comparator: each index is always a valid, duplicate-free search tree. -/
theorem traversals_strictly_ascending (hL : IsSWO cmpL) (hR : IsSWO cmpR)
    (ops : List (Op L R)) :
    List.Pairwise (fun p q : L × R => cmpL p.1 q.1 = true)
      (runOps cmpL cmpR ops).leftTree.inorder ∧
    List.Pairwise (fun p q : L × R => cmpR p.2 q.2 = true)
      (runOps cmpL cmpR ops).rightTree.inorder := by
  have hw := WF.runOps_wf cmpL cmpR hL hR ops
  exact ⟨hw.1, hw.2.1⟩

theorem traversals_strictly_ascending_witness :
    IsSWO natLt ∧
    (List.Pairwise (fun p q : Nat × Nat => natLt p.1 q.1 = true)
      (runOps natLt natLt
        [.insert 2 20, .insert 1 10, .insert 3 30, .eraseLeft 2,
         .insert 2 25, .eraseRight 10]).leftTree.inorder ∧
     List.Pairwise (fun p q : Nat × Nat => natLt p.2 q.2 = true)
      (runOps natLt natLt
        [.insert 2 20, .insert 1 10, .insert 3 30, .eraseLeft 2,
         .insert 2 25, .eraseRight 10]).rightTree.inorder) :=
  ⟨isSWO_natLt,
   traversals_strictly_ascending natLt natLt isSWO_natLt isSWO_natLt _⟩

/-- C7: `flip` maps each side's end position to the other side's end
position, maps the Left position of a live pair to the Right position of
the same record (which the Right index indeed contains) with no key
comparison, and composing `flip` with `flip` is the identity on every
position. -/
theorem flip_round_trip (hL : IsSWO cmpL) :
    (flipLeft (none : Option (L × R)) = none ∧
       flipRight (none : Option (L × R)) = none) ∧
    (∀ p : L × R, flipLeft (some p) = some p ∧ flipRight (some p) = some p) ∧
    (∀ it : Option (L × R),
       flipRight (flipLeft it) = it ∧ flipLeft (flipRight it) = it) ∧
    (∀ (m : Bimap L R) (k : L) (p : L × R), WF cmpL cmpR m →
       findLeft cmpL m k = some p →
       flipLeft (some p) = some p ∧ p ∈ m.rightTree.inorder) := by
  refine ⟨⟨rfl, rfl⟩, fun p => ⟨rfl, rfl⟩, fun it => ?_, fun m k p hw hf => ?_⟩
  · cases it <;> exact ⟨rfl, rfl⟩
  · obtain ⟨hmem, _⟩ := findLeft_some_facts cmpL hL hw.1 hf
    exact ⟨rfl, hw.2.2.1.mem_iff.mp hmem⟩

theorem flip_round_trip_witness :
    IsSWO natLt ∧
    (flipLeft (none : Option (Nat × Nat)) = none ∧
     flipRight (none : Option (Nat × Nat)) = none) ∧
    (WF natLt natLt demoBimap ∧ findLeft natLt demoBimap 1 = some (1, 10)) ∧
    (flipLeft (some ((1, 10) : Nat × Nat)) = some (1, 10) ∧
     (1, 10) ∈ demoBimap.rightTree.inorder) :=
  ⟨isSWO_natLt, (flip_round_trip natLt natLt isSWO_natLt).1,
   ⟨by decide, by decide⟩,
   (flip_round_trip natLt natLt isSWO_natLt).2.2.2 demoBimap 1 (1, 10)
     (by decide) (by decide)⟩

/-- C8: `at_left` returns the paired Right value when the Left key is
present and fails with the `std::out_of_range` "key not found" condition
when it is absent (`at_right` symmetrically); both methods are `const`,
so the container cannot change. -/
theorem at_key_spec (hL : IsSWO cmpL) (hR : IsSWO cmpR) {m : Bimap L R}
    (hw : WF cmpL cmpR m) :
    (∀ (k : L) (p : L × R), p ∈ m.leftTree.inorder → EquivKey cmpL p.1 k →
       atLeft cmpL m k = .ok p.2) ∧
    (∀ k : L, (∀ p ∈ m.leftTree.inorder, ¬ EquivKey cmpL p.1 k) →
       atLeft cmpL m k = .error "bimap::at_left: no element found") ∧
    (∀ (k : R) (p : L × R), p ∈ m.rightTree.inorder → EquivKey cmpR p.2 k →
       atRight cmpR m k = .ok p.1) ∧
    (∀ k : R, (∀ p ∈ m.rightTree.inorder, ¬ EquivKey cmpR p.2 k) →
       atRight cmpR m k = .error "bimap::at_right: no element found") := by
  refine ⟨?_, ?_, ?_, ?_⟩
  · intro k p hp heq
    have hf := findLeft_of_mem cmpL hL hw.1 hp heq
    simp [atLeft, hf]
  · intro k h
    have hf : findLeft cmpL m k = none :=
      (findLeft_none_iff cmpL hL hw.1 k).mpr h
    simp [atLeft, hf]
  · intro k p hp heq
    have hf := findRight_of_mem cmpR hR hw.2.1 hp heq
    simp [atRight, hf]
  · intro k h
    have hf : findRight cmpR m k = none :=
      (findRight_none_iff cmpR hR hw.2.1 k).mpr h
    simp [atRight, hf]

theorem at_key_spec_witness :
    (IsSWO natLt ∧ WF natLt natLt demoBimap ∧
     (1, 10) ∈ demoBimap.leftTree.inorder ∧ EquivKey natLt 1 1) ∧
    atLeft natLt demoBimap 1 = .ok 10 ∧
    atLeft natLt demoBimap 7 = .error "bimap::at_left: no element found" :=
  ⟨⟨isSWO_natLt, by decide, by decide, by decide⟩,
   (at_key_spec natLt natLt isSWO_natLt isSWO_natLt (by decide)).1 1 (1, 10)
     (by decide) (by decide),
   (at_key_spec natLt natLt isSWO_natLt isSWO_natLt (by decide)).2.1 7
     (by decide)⟩

/-- C9: on every well-formed bimap, `lower_bound` returns the first
position (in key order) whose key is not less than the probe under that
side's comparator, or `end` when none exists; `find` returns the position
whose key is order-equivalent to the probe, or `end`; `upper_bound`
returns the first position whose key is strictly greater than the probe
(the position just past any equal-key match). -/
theorem search_bounds_spec (hL : IsSWO cmpL) (hR : IsSWO cmpR)
    {m : Bimap L R} (hw : WF cmpL cmpR m) :
    (∀ k : L, lowerBoundLeft cmpL m k =
       m.leftTree.inorder.find? (fun p => !cmpL p.1 k)) ∧
    (∀ k : L, findLeft cmpL m k =
       m.leftTree.inorder.find? (fun p => keyEqual cmpL p.1 k)) ∧
    (∀ k : L, upperBoundLeft cmpL m k =
       m.leftTree.inorder.find? (fun p => cmpL k p.1)) ∧
    (∀ k : R, lowerBoundRight cmpR m k =
       m.rightTree.inorder.find? (fun p => !cmpR p.2 k)) ∧
    (∀ k : R, findRight cmpR m k =
       m.rightTree.inorder.find? (fun p => keyEqual cmpR p.2 k)) ∧
    (∀ k : R, upperBoundRight cmpR m k =
       m.rightTree.inorder.find? (fun p => cmpR k p.2)) :=
  ⟨fun _ => setLowerBound_spec hL hw.1, fun _ => setFind_spec hL hw.1,
   fun _ => setUpperBound_spec hL hw.1, fun _ => setLowerBound_spec hR hw.2.1,
   fun _ => setFind_spec hR hw.2.1, fun _ => setUpperBound_spec hR hw.2.1⟩

theorem search_bounds_spec_witness :
    (IsSWO natLt ∧ WF natLt natLt demoBimap) ∧
    lowerBoundLeft natLt demoBimap 2 =
      demoBimap.leftTree.inorder.find? (fun p => !natLt p.1 2) ∧
    upperBoundLeft natLt demoBimap 1 =
      demoBimap.leftTree.inorder.find? (fun p => natLt 1 p.1) ∧
    findRight natLt demoBimap 20 =
      demoBimap.rightTree.inorder.find? (fun p => keyEqual natLt p.2 20) :=
  ⟨⟨isSWO_natLt, by decide⟩,
   (search_bounds_spec natLt natLt isSWO_natLt isSWO_natLt (by decide)).1 2,
   (search_bounds_spec natLt natLt isSWO_natLt isSWO_natLt
     (by decide)).2.2.1 1,
   (search_bounds_spec natLt natLt isSWO_natLt isSWO_natLt
     (by decide)).2.2.2.2.1 20⟩

end BimapModel

namespace BimapModel

open IntrusiveSet

variable {L R : Type} (cmpL : L → L → Bool) (cmpR : R → R → Bool)

/-- C6: two bimaps compare equal exactly when their pair counts agree and
the lockstep walk of their Left-ascending traversals finds every visited
pair of `a` order-equivalent to the corresponding pair of `b` under the
Left comparator on left values and under the Right comparator on right
values; `operator!=` is the negation of `operator==`. -/
theorem bimap_equality_spec {a b : Bimap L R}
    (hwa : WF cmpL cmpR a) (hwb : WF cmpL cmpR b) :
    (bimapEq cmpL cmpR a b = true ↔
       a.size = b.size ∧
       List.Forall₂ (fun p q : L × R =>
           EquivKey cmpL p.1 q.1 ∧ EquivKey cmpR p.2 q.2)
         a.leftTree.inorder b.leftTree.inorder) ∧
    (bimapNe cmpL cmpR a b = true ↔ ¬ bimapEq cmpL cmpR a b = true) := by
  refine ⟨?_, by simp [bimapNe]⟩
  by_cases hs : a.size = b.size
  · have hlen : a.leftTree.inorder.length = b.leftTree.inorder.length := by
      have h1 := hwa.2.2.2
      have h2 := hwb.2.2.2
      simp only [Bimap.size] at hs
      omega
    unfold bimapEq
    rw [if_neg (fun hne => hne hs), List.all_eq_true]
    constructor
    · intro h
      refine ⟨hs, (List.forall₂_iff_zip).mpr ⟨hlen, ?_⟩⟩
      intro p q hpq
      have h2 := h (p, q) hpq
      simp only [Bool.and_eq_true, keyEqual_iff] at h2
      exact h2
    · rintro ⟨-, hf⟩
      obtain ⟨-, h⟩ := (List.forall₂_iff_zip).mp hf
      intro x hx
      obtain ⟨p, q⟩ := x
      have h2 := h hx
      simp only [Bool.and_eq_true, keyEqual_iff]
      exact h2
  · unfold bimapEq
    rw [if_pos hs]
    simp [hs]

theorem bimap_equality_spec_witness :
    WF natLt natLt demoBimap ∧
    (bimapEq natLt natLt demoBimap demoBimap = true ↔
       demoBimap.size = demoBimap.size ∧
       List.Forall₂ (fun p q : Nat × Nat =>
           EquivKey natLt p.1 q.1 ∧ EquivKey natLt p.2 q.2)
         demoBimap.leftTree.inorder demoBimap.leftTree.inorder) :=
  ⟨by decide,
   (bimap_equality_spec natLt natLt (by decide) (by decide)).1⟩

/-- C1: the coordinated insert is atomic: whenever the Left key already
has an order-equivalent occupant in the Left index or the Right key has
one in the Right index, `insert` returns `end_left()` and the container is
exactly unchanged — same size and the same elements in the same order in
both indices; in particular a Right-side collision after the Left-side
registration is fully rolled back. -/
theorem insert_collision_is_noop (hL : IsSWO cmpL) (hR : IsSWO cmpR)
    {m : Bimap L R} (hw : WF cmpL cmpR m) (l : L) (r : R)
    (hcoll : findLeft cmpL m l ≠ none ∨ findRight cmpR m r ≠ none) :
    Bimap.insert cmpL cmpR m l r = (m, none) := by
  rcases hcoll with hc | hc
  · cases hf : findLeft cmpL m l with
    | none => exact absurd hf hc
    | some p =>
      obtain ⟨hmem, heq⟩ := findLeft_some_facts cmpL hL hw.1 hf
      have h1 : (setInsert cmpL Prod.fst (l, r) m.leftTree).2 = false :=
        setInsert_false_of_equiv_mem hL hw.1 hmem heq
      exact insertNode_of_left_coll cmpL cmpR h1
  · cases hf : findRight cmpR m r with
    | none => exact absurd hf hc
    | some p =>
      obtain ⟨hmem, heq⟩ := findRight_some_facts cmpR hR hw.2.1 hf
      have h2 : (setInsert cmpR Prod.snd (l, r) m.rightTree).2 = false :=
        setInsert_false_of_equiv_mem hR hw.2.1 hmem heq
      cases h1 : (setInsert cmpL Prod.fst (l, r) m.leftTree).2 with
      | false => exact insertNode_of_left_coll cmpL cmpR h1
      | true => exact insertNode_of_right_coll cmpL cmpR hL h1 h2

theorem insert_collision_is_noop_witness :
    (WF natLt natLt demoBimap ∧ findLeft natLt demoBimap 1 ≠ none ∧
     findRight natLt demoBimap 20 ≠ none) ∧
    Bimap.insert natLt natLt demoBimap 1 99 = (demoBimap, none) ∧
    Bimap.insert natLt natLt demoBimap 5 20 = (demoBimap, none) :=
  ⟨⟨by decide, by decide, by decide⟩,
   insert_collision_is_noop natLt natLt isSWO_natLt isSWO_natLt (by decide)
     1 99 (Or.inl (by decide)),
   insert_collision_is_noop natLt natLt isSWO_natLt isSWO_natLt (by decide)
     5 20 (Or.inr (by decide))⟩

end BimapModel

namespace BimapModel

open IntrusiveSet

variable {L R : Type} (cmpL : L → L → Bool) (cmpR : R → R → Bool)

/-- C2: when neither key has an order-equivalent occupant, `insert`
succeeds: it returns the Left position of the new pair, increments the
pair count by exactly one, and immediately afterwards `find_left` and
`find_right` both locate the new pair, with `flip` on either of those
positions yielding the other. -/
theorem insert_success_spec (hL : IsSWO cmpL) (hR : IsSWO cmpR)
    {m : Bimap L R} (hw : WF cmpL cmpR m) (l : L) (r : R)
    (hfl : findLeft cmpL m l = none) (hfr : findRight cmpR m r = none) :
    (Bimap.insert cmpL cmpR m l r).2 = some (l, r) ∧
    (Bimap.insert cmpL cmpR m l r).1.size = m.size + 1 ∧
    findLeft cmpL (Bimap.insert cmpL cmpR m l r).1 l = some (l, r) ∧
    findRight cmpR (Bimap.insert cmpL cmpR m l r).1 r = some (l, r) ∧
    flipLeft (findLeft cmpL (Bimap.insert cmpL cmpR m l r).1 l) =
      findRight cmpR (Bimap.insert cmpL cmpR m l r).1 r ∧
    flipRight (findRight cmpR (Bimap.insert cmpL cmpR m l r).1 r) =
      findLeft cmpL (Bimap.insert cmpL cmpR m l r).1 l := by
  have hneL := (findLeft_none_iff cmpL hL hw.1 l).mp hfl
  have hneR := (findRight_none_iff cmpR hR hw.2.1 r).mp hfr
  obtain ⟨h1, h2⟩ := insert_both_new cmpL cmpR (u := (l, r)) hneL hneR
  have hins : Bimap.insert cmpL cmpR m l r =
      (⟨(setInsert cmpL Prod.fst (l, r) m.leftTree).1,
        (setInsert cmpR Prod.snd (l, r) m.rightTree).1,
        m.m_size + 1⟩, some (l, r)) :=
    insertNode_success cmpL cmpR h1 h2
  have hbl' := hw.1.setInsert_pres hL (x := (l, r))
  have hbr' := hw.2.1.setInsert_pres hR (x := (l, r))
  obtain ⟨a, b, hab, hab'⟩ := setInsert_inorder h1
  obtain ⟨c, d, hcd, hcd'⟩ := setInsert_inorder h2
  have hmeml : (l, r) ∈ (setInsert cmpL Prod.fst (l, r) m.leftTree).1.inorder := by
    rw [hab']; simp
  have hmemr : (l, r) ∈ (setInsert cmpR Prod.snd (l, r) m.rightTree).1.inorder := by
    rw [hcd']; simp
  have hfl' : findLeft cmpL (Bimap.insert cmpL cmpR m l r).1 l = some (l, r) := by
    rw [hins]
    exact findLeft_of_mem cmpL hL hbl' hmeml (EquivKey.refl hL l)
  have hfr' : findRight cmpR (Bimap.insert cmpL cmpR m l r).1 r = some (l, r) := by
    rw [hins]
    exact findRight_of_mem cmpR hR hbr' hmemr (EquivKey.refl hR r)
  refine ⟨by rw [hins], by rw [hins]; rfl, hfl', hfr', ?_, ?_⟩
  · rw [hfl', hfr']
    rfl
  · rw [hfr', hfl']
    rfl

theorem insert_success_spec_witness :
    (WF natLt natLt demoBimap ∧ findLeft natLt demoBimap 3 = none ∧
     findRight natLt demoBimap 30 = none) ∧
    ((Bimap.insert natLt natLt demoBimap 3 30).2 = some (3, 30) ∧
     (Bimap.insert natLt natLt demoBimap 3 30).1.size = demoBimap.size + 1 ∧
     findLeft natLt (Bimap.insert natLt natLt demoBimap 3 30).1 3 =
       some (3, 30) ∧
     findRight natLt (Bimap.insert natLt natLt demoBimap 3 30).1 30 =
       some (3, 30) ∧
     flipLeft (findLeft natLt (Bimap.insert natLt natLt demoBimap 3 30).1 3) =
       findRight natLt (Bimap.insert natLt natLt demoBimap 3 30).1 30 ∧
     flipRight (findRight natLt (Bimap.insert natLt natLt demoBimap 3 30).1 30) =
       findLeft natLt (Bimap.insert natLt natLt demoBimap 3 30).1 3) :=
  ⟨⟨by decide, by decide, by decide⟩,
   insert_success_spec natLt natLt isSWO_natLt isSWO_natLt (by decide) 3 30
     (by decide) (by decide)⟩

end BimapModel

namespace BimapModel

open IntrusiveSet

variable {L R : Type} (cmpL : L → L → Bool) (cmpR : R → R → Bool)

/-- C4: erasing at a valid (non-end) position holding the pair `p` —
given by the position of `p` in the in-order traversal of its own side —
removes that pair from both indices, decrements the pair count by exactly
one, returns the in-order successor position on the same side captured
before removal, makes `find` on either of `p`'s keys report `end`, and
leaves every other pair in place (`erase_left` on a Left position, and
symmetrically `erase_right` on a Right position). -/
theorem erase_at_position_spec (hL : IsSWO cmpL) (hR : IsSWO cmpR) :
    (∀ (m : Bimap L R) (p : L × R) (l₁ l₂ : List (L × R)),
       WF cmpL cmpR m → m.leftTree.inorder = l₁ ++ p :: l₂ →
       (eraseAtLeft cmpL cmpR m p).1.size + 1 = m.size ∧
       (eraseAtLeft cmpL cmpR m p).2 = l₂.head? ∧
       findLeft cmpL (eraseAtLeft cmpL cmpR m p).1 p.1 = none ∧
       findRight cmpR (eraseAtLeft cmpL cmpR m p).1 p.2 = none ∧
       (eraseAtLeft cmpL cmpR m p).1.leftTree.inorder = l₁ ++ l₂ ∧
       List.Perm (eraseAtLeft cmpL cmpR m p).1.rightTree.inorder (l₁ ++ l₂)) ∧
    (∀ (m : Bimap L R) (p : L × R) (r₁ r₂ : List (L × R)),
       WF cmpL cmpR m → m.rightTree.inorder = r₁ ++ p :: r₂ →
       (eraseAtRight cmpL cmpR m p).1.size + 1 = m.size ∧
       (eraseAtRight cmpL cmpR m p).2 = r₂.head? ∧
       findLeft cmpL (eraseAtRight cmpL cmpR m p).1 p.1 = none ∧
       findRight cmpR (eraseAtRight cmpL cmpR m p).1 p.2 = none ∧
       (eraseAtRight cmpL cmpR m p).1.rightTree.inorder = r₁ ++ r₂ ∧
       List.Perm (eraseAtRight cmpL cmpR m p).1.leftTree.inorder (r₁ ++ r₂)) := by
  constructor
  · intro m p l₁ l₂ hw hsp
    obtain ⟨hbl, hbr, hperm, hsize⟩ := hw
    have hp : p ∈ m.leftTree.inorder := by rw [hsp]; simp
    have hpr : p ∈ m.rightTree.inorder := hperm.mem_iff.mp hp
    obtain ⟨r₁, r₂, hspr⟩ := List.append_of_mem hpr
    have hleft : (setEraseKey cmpL Prod.fst p.1 m.leftTree).inorder = l₁ ++ l₂ := by
      rw [setEraseKey_inorder hL hbl, hsp]
      exact sorted_eraseP_split hL (hsp ▸ hbl) (EquivKey.refl hL p.1)
    have hright : (setEraseKey cmpR Prod.snd p.2 m.rightTree).inorder = r₁ ++ r₂ := by
      rw [setEraseKey_inorder hR hbr, hspr]
      exact sorted_eraseP_split hR (hspr ▸ hbr) (EquivKey.refl hR p.2)
    have hbl' : IsBST cmpL Prod.fst (setEraseKey cmpL Prod.fst p.1 m.leftTree) :=
      hbl.setEraseKey_pres hL
    have hbr' : IsBST cmpR Prod.snd (setEraseKey cmpR Prod.snd p.2 m.rightTree) :=
      hbr.setEraseKey_pres hR
    have hlen1 : 1 ≤ m.m_size := by
      rw [hsize, hsp]
      simp only [List.length_append, List.length_cons]
      omega
    refine ⟨?_, ?_, ?_, ?_, hleft, ?_⟩
    · show m.m_size - 1 + 1 = m.m_size
      omega
    · show succFrom cmpL Prod.fst p.1 m.leftTree = l₂.head?
      rw [succFrom, hsp]
      exact sorted_find?_gt_split hL (hsp ▸ hbl)
    · show setFind cmpL Prod.fst p.1 (setEraseKey cmpL Prod.fst p.1 m.leftTree) = none
      refine setFind_none_of_no_equiv hL hbl' ?_
      rw [hleft]
      exact no_equiv_in_rest hL (hsp ▸ hbl) (EquivKey.refl hL p.1)
    · show setFind cmpR Prod.snd p.2 (setEraseKey cmpR Prod.snd p.2 m.rightTree) = none
      refine setFind_none_of_no_equiv hR hbr' ?_
      rw [hright]
      exact no_equiv_in_rest hR (hspr ▸ hbr) (EquivKey.refl hR p.2)
    · show List.Perm (setEraseKey cmpR Prod.snd p.2 m.rightTree).inorder (l₁ ++ l₂)
      rw [hright]
      have hch : List.Perm (r₁ ++ p :: r₂) (l₁ ++ p :: l₂) := by
        rw [← hsp, ← hspr]; exact hperm.symm
      exact (List.perm_middle.symm.trans (hch.trans List.perm_middle)).cons_inv
  · intro m p r₁ r₂ hw hspr
    obtain ⟨hbl, hbr, hperm, hsize⟩ := hw
    have hpr : p ∈ m.rightTree.inorder := by rw [hspr]; simp
    have hp : p ∈ m.leftTree.inorder := hperm.mem_iff.mpr hpr
    obtain ⟨l₁, l₂, hsp⟩ := List.append_of_mem hp
    have hleft : (setEraseKey cmpL Prod.fst p.1 m.leftTree).inorder = l₁ ++ l₂ := by
      rw [setEraseKey_inorder hL hbl, hsp]
      exact sorted_eraseP_split hL (hsp ▸ hbl) (EquivKey.refl hL p.1)
    have hright : (setEraseKey cmpR Prod.snd p.2 m.rightTree).inorder = r₁ ++ r₂ := by
      rw [setEraseKey_inorder hR hbr, hspr]
      exact sorted_eraseP_split hR (hspr ▸ hbr) (EquivKey.refl hR p.2)
    have hbl' : IsBST cmpL Prod.fst (setEraseKey cmpL Prod.fst p.1 m.leftTree) :=
      hbl.setEraseKey_pres hL
    have hbr' : IsBST cmpR Prod.snd (setEraseKey cmpR Prod.snd p.2 m.rightTree) :=
      hbr.setEraseKey_pres hR
    have hlen1 : 1 ≤ m.m_size := by
      rw [hsize, hsp]
      simp only [List.length_append, List.length_cons]
      omega
    refine ⟨?_, ?_, ?_, ?_, hright, ?_⟩
    · show m.m_size - 1 + 1 = m.m_size
      omega
    · show succFrom cmpR Prod.snd p.2 m.rightTree = r₂.head?
      rw [succFrom, hspr]
      exact sorted_find?_gt_split hR (hspr ▸ hbr)
    · show setFind cmpL Prod.fst p.1 (setEraseKey cmpL Prod.fst p.1 m.leftTree) = none
      refine setFind_none_of_no_equiv hL hbl' ?_
      rw [hleft]
      exact no_equiv_in_rest hL (hsp ▸ hbl) (EquivKey.refl hL p.1)
    · show setFind cmpR Prod.snd p.2 (setEraseKey cmpR Prod.snd p.2 m.rightTree) = none
      refine setFind_none_of_no_equiv hR hbr' ?_
      rw [hright]
      exact no_equiv_in_rest hR (hspr ▸ hbr) (EquivKey.refl hR p.2)
    · show List.Perm (setEraseKey cmpL Prod.fst p.1 m.leftTree).inorder (r₁ ++ r₂)
      rw [hleft]
      have hch : List.Perm (l₁ ++ p :: l₂) (r₁ ++ p :: r₂) := by
        rw [← hsp, ← hspr]; exact hperm
      exact (List.perm_middle.symm.trans (hch.trans List.perm_middle)).cons_inv

theorem erase_at_position_spec_witness :
    (WF natLt natLt demoBimap ∧
     demoBimap.leftTree.inorder = [] ++ (1, 10) :: [(2, 20)]) ∧
    ((eraseAtLeft natLt natLt demoBimap (1, 10)).1.size + 1 = demoBimap.size ∧
     (eraseAtLeft natLt natLt demoBimap (1, 10)).2 = [(2, 20)].head? ∧
     findLeft natLt (eraseAtLeft natLt natLt demoBimap (1, 10)).1 1 = none ∧
     findRight natLt (eraseAtLeft natLt natLt demoBimap (1, 10)).1 10 = none ∧
     (eraseAtLeft natLt natLt demoBimap (1, 10)).1.leftTree.inorder =
       [] ++ [(2, 20)] ∧
     List.Perm (eraseAtLeft natLt natLt demoBimap (1, 10)).1.rightTree.inorder
       ([] ++ [(2, 20)])) :=
  ⟨⟨by decide, by decide⟩,
   (erase_at_position_spec natLt natLt isSWO_natLt isSWO_natLt).1 demoBimap
     (1, 10) [] [(2, 20)] (by decide) (by decide)⟩

end BimapModel

namespace BimapModel

open IntrusiveSet

variable {L R : Type} (cmpL : L → L → Bool) (cmpR : R → R → Bool)

/-- After `erase_right(u->right)` inside `at_left_or_default`: the state
is still well-formed, the queried Left key is still unoccupied, and no
pair keyed by the default Right value remains. -/
theorem evict_core (hL : IsSWO cmpL) (hR : IsSWO cmpR) {m : Bimap L R}
    (hw : WF cmpL cmpR m) {k : L} (dR : R)
    (hfl : findLeft cmpL m k = none) :
    WF cmpL cmpR (eraseRightKey cmpL cmpR m dR).1 ∧
    (∀ p ∈ (eraseRightKey cmpL cmpR m dR).1.leftTree.inorder,
       ¬ EquivKey cmpL p.1 k) ∧
    (∀ p ∈ (eraseRightKey cmpL cmpR m dR).1.rightTree.inorder,
       ¬ EquivKey cmpR p.2 dR) := by
  have hw1 := WF.eraseRightKey_pres cmpL cmpR hL hR hw dR
  have hneL := (findLeft_none_iff cmpL hL hw.1 k).mp hfl
  refine ⟨hw1, ?_, ?_⟩
  · cases hfr : findRight cmpR m dR with
    | none =>
      intro p hp
      apply hneL
      simpa [eraseRightKey, hfr] using hp
    | some q =>
      intro p hp
      apply hneL
      have hlt : (eraseRightKey cmpL cmpR m dR).1.leftTree =
          setEraseKey cmpL Prod.fst q.1 m.leftTree := by
        simp [eraseRightKey, hfr, eraseAtRight]
      rw [hlt, setEraseKey_inorder hL hw.1] at hp
      exact List.Sublist.mem hp (List.eraseP_sublist _)
  · cases hfr : findRight cmpR m dR with
    | none =>
      intro p hp
      have hne := (findRight_none_iff cmpR hR hw.2.1 dR).mp hfr
      apply hne
      simpa [eraseRightKey, hfr] using hp
    | some q =>
      obtain ⟨hqm, hqe⟩ := findRight_some_facts cmpR hR hw.2.1 hfr
      obtain ⟨r₁, r₂, hspr⟩ := List.append_of_mem hqm
      have hrt : (eraseRightKey cmpL cmpR m dR).1.rightTree =
          setEraseKey cmpR Prod.snd q.2 m.rightTree := by
        simp [eraseRightKey, hfr, eraseAtRight]
      intro p hp
      rw [hrt, setEraseKey_inorder hR hw.2.1, hspr,
        sorted_eraseP_split hR (hspr ▸ hw.2.1) (EquivKey.refl hR q.2)] at hp
      exact no_equiv_in_rest hR (hspr ▸ hw.2.1) hqe p hp

/-- Symmetric core for `at_right_or_default`: after `erase_left(u->left)`
the state is well-formed, the queried Right key is still unoccupied, and
no pair keyed by the default Left value remains. -/
theorem evict_core_right (hL : IsSWO cmpL) (hR : IsSWO cmpR) {m : Bimap L R}
    (hw : WF cmpL cmpR m) {k : R} (dL : L)
    (hfr : findRight cmpR m k = none) :
    WF cmpL cmpR (eraseLeftKey cmpL cmpR m dL).1 ∧
    (∀ p ∈ (eraseLeftKey cmpL cmpR m dL).1.rightTree.inorder,
       ¬ EquivKey cmpR p.2 k) ∧
    (∀ p ∈ (eraseLeftKey cmpL cmpR m dL).1.leftTree.inorder,
       ¬ EquivKey cmpL p.1 dL) := by
  have hw1 := WF.eraseLeftKey_pres cmpL cmpR hL hR hw dL
  have hneR := (findRight_none_iff cmpR hR hw.2.1 k).mp hfr
  refine ⟨hw1, ?_, ?_⟩
  · cases hfl : findLeft cmpL m dL with
    | none =>
      intro p hp
      apply hneR
      simpa [eraseLeftKey, hfl] using hp
    | some q =>
      intro p hp
      apply hneR
      have hrt : (eraseLeftKey cmpL cmpR m dL).1.rightTree =
          setEraseKey cmpR Prod.snd q.2 m.rightTree := by
        simp [eraseLeftKey, hfl, eraseAtLeft]
      rw [hrt, setEraseKey_inorder hR hw.2.1] at hp
      exact List.Sublist.mem hp (List.eraseP_sublist _)
  · cases hfl : findLeft cmpL m dL with
    | none =>
      intro p hp
      have hne := (findLeft_none_iff cmpL hL hw.1 dL).mp hfl
      apply hne
      simpa [eraseLeftKey, hfl] using hp
    | some q =>
      obtain ⟨hqm, hqe⟩ := findLeft_some_facts cmpL hL hw.1 hfl
      obtain ⟨l₁, l₂, hsp⟩ := List.append_of_mem hqm
      have hlt : (eraseLeftKey cmpL cmpR m dL).1.leftTree =
          setEraseKey cmpL Prod.fst q.1 m.leftTree := by
        simp [eraseLeftKey, hfl, eraseAtLeft]
      intro p hp
      rw [hlt, setEraseKey_inorder hL hw.1, hsp,
        sorted_eraseP_split hL (hsp ▸ hw.1) (EquivKey.refl hL q.1)] at hp
      exact no_equiv_in_rest hL (hsp ▸ hw.1) hqe p hp

/-- C10: on the absent-key path of `at_left_or_default` (and symmetrically
`at_right_or_default`), the internal coordinated insert of the candidate
record never takes either collision branch: the queried key was just
verified absent on its own side and any pair keyed by the default value
on the opposite side was erased immediately before, so `insert_node`
returns the new non-end position and the two `delete u; return
end_left();` branches are unreachable on this path. -/
theorem or_default_insert_never_collides (hL : IsSWO cmpL) (hR : IsSWO cmpR) :
    (∀ (m : Bimap L R) (k : L) (dR : R), WF cmpL cmpR m →
       findLeft cmpL m k = none →
       (insertNode cmpL cmpR (eraseRightKey cmpL cmpR m dR).1 (k, dR)).2 =
         some (k, dR)) ∧
    (∀ (m : Bimap L R) (k : R) (dL : L), WF cmpL cmpR m →
       findRight cmpR m k = none →
       (insertNode cmpL cmpR (eraseLeftKey cmpL cmpR m dL).1 (dL, k)).2 =
         some (dL, k)) := by
  constructor
  · intro m k dR hw hfl
    obtain ⟨hw1, hb, hc⟩ := evict_core cmpL cmpR hL hR hw dR hfl
    obtain ⟨h1, h2⟩ := insert_both_new cmpL cmpR (u := (k, dR)) hb hc
    rw [insertNode_success cmpL cmpR h1 h2]
  · intro m k dL hw hfr
    obtain ⟨hw1, hb, hc⟩ := evict_core_right cmpL cmpR hL hR hw dL hfr
    obtain ⟨h1, h2⟩ := insert_both_new cmpL cmpR (u := (dL, k)) hc hb
    rw [insertNode_success cmpL cmpR h1 h2]

theorem or_default_insert_never_collides_witness :
    (WF natLt natLt demoBimap ∧ findLeft natLt demoBimap 4 = none) ∧
    (insertNode natLt natLt (eraseRightKey natLt natLt demoBimap 20).1
      (4, 20)).2 = some (4, 20) :=
  ⟨⟨by decide, by decide⟩,
   (or_default_insert_never_collides natLt natLt isSWO_natLt
     isSWO_natLt).1 demoBimap 4 20 (by decide) (by decide)⟩

end BimapModel

namespace BimapModel

open IntrusiveSet

variable {L R : Type} (cmpL : L → L → Bool) (cmpR : R → R → Bool)

/-- C5: `at_left_or_default(key)` returns the paired Right value and does
not change the container when the key is present; when the key is absent
it first erases any pair whose Right key is order-equivalent to the
default-constructed Right value `dR`, then inserts `(key, dR)` and
returns the stored default, so afterwards both finds locate the new pair;
the size stays unchanged when a pair was evicted (one removed, one added)
and grows by one otherwise (`at_right_or_default` symmetrically). -/
theorem at_or_default_spec (hL : IsSWO cmpL) (hR : IsSWO cmpR) :
    (∀ (m : Bimap L R) (dR : R) (k : L), WF cmpL cmpR m →
       (∀ p, findLeft cmpL m k = some p →
          atLeftOrDefault cmpL cmpR m dR k = (m, p.2)) ∧
       (findLeft cmpL m k = none →
          (atLeftOrDefault cmpL cmpR m dR k).2 = dR ∧
          findLeft cmpL (atLeftOrDefault cmpL cmpR m dR k).1 k =
            some (k, dR) ∧
          findRight cmpR (atLeftOrDefault cmpL cmpR m dR k).1 dR =
            some (k, dR) ∧
          (findRight cmpR m dR = none →
             (atLeftOrDefault cmpL cmpR m dR k).1.size = m.size + 1) ∧
          (findRight cmpR m dR ≠ none →
             (atLeftOrDefault cmpL cmpR m dR k).1.size = m.size))) ∧
    (∀ (m : Bimap L R) (dL : L) (k : R), WF cmpL cmpR m →
       (∀ p, findRight cmpR m k = some p →
          atRightOrDefault cmpL cmpR m dL k = (m, p.1)) ∧
       (findRight cmpR m k = none →
          (atRightOrDefault cmpL cmpR m dL k).2 = dL ∧
          findRight cmpR (atRightOrDefault cmpL cmpR m dL k).1 k =
            some (dL, k) ∧
          findLeft cmpL (atRightOrDefault cmpL cmpR m dL k).1 dL =
            some (dL, k) ∧
          (findLeft cmpL m dL = none →
             (atRightOrDefault cmpL cmpR m dL k).1.size = m.size + 1) ∧
          (findLeft cmpL m dL ≠ none →
             (atRightOrDefault cmpL cmpR m dL k).1.size = m.size))) := by
  constructor
  · intro m dR k hw
    constructor
    · intro p hp
      simp [atLeftOrDefault, hp]
    · intro hfl
      obtain ⟨hw1, hb, hc⟩ := evict_core cmpL cmpR hL hR hw dR hfl
      obtain ⟨h1, h2⟩ := insert_both_new cmpL cmpR (u := (k, dR)) hb hc
      have hsucc := insertNode_success cmpL cmpR h1 h2
      have hres : atLeftOrDefault cmpL cmpR m dR k =
          ((insertNode cmpL cmpR (eraseRightKey cmpL cmpR m dR).1 (k, dR)).1,
           dR) := by
        simp [atLeftOrDefault, hfl]
      refine ⟨by rw [hres], ?_, ?_, ?_, ?_⟩
      · rw [hres, hsucc]
        have hbl' := hw1.1.setInsert_pres hL (x := (k, dR))
        obtain ⟨a, b, hab, hab'⟩ := setInsert_inorder h1
        exact findLeft_of_mem cmpL hL hbl' (by rw [hab']; simp)
          (EquivKey.refl hL k)
      · rw [hres, hsucc]
        have hbr' := hw1.2.1.setInsert_pres hR (x := (k, dR))
        obtain ⟨c, d, hcd, hcd'⟩ := setInsert_inorder h2
        exact findRight_of_mem cmpR hR hbr' (by rw [hcd']; simp)
          (EquivKey.refl hR dR)
      · intro hfr
        have hm1m : (eraseRightKey cmpL cmpR m dR).1 = m := by
          simp [eraseRightKey, hfr]
        rw [hres, hsucc]
        show (eraseRightKey cmpL cmpR m dR).1.m_size + 1 = m.size + 1
        rw [hm1m]
        rfl
      · intro hfr
        cases hfr' : findRight cmpR m dR with
        | none => exact absurd hfr' hfr
        | some q =>
          have hm1size : (eraseRightKey cmpL cmpR m dR).1.m_size =
              m.m_size - 1 := by
            simp [eraseRightKey, hfr', eraseAtRight]
          obtain ⟨hqm, _⟩ := findRight_some_facts cmpR hR hw.2.1 hfr'
          have hpos : 0 < m.rightTree.inorder.length :=
            List.length_pos_of_mem hqm
          have hlen := hw.2.2.1.length_eq
          have hms := hw.2.2.2
          rw [hres, hsucc]
          show (eraseRightKey cmpL cmpR m dR).1.m_size + 1 = m.size
          rw [hm1size]
          show m.m_size - 1 + 1 = m.m_size
          omega
  · intro m dL k hw
    constructor
    · intro p hp
      simp [atRightOrDefault, hp]
    · intro hfr
      obtain ⟨hw1, hb, hc⟩ := evict_core_right cmpL cmpR hL hR hw dL hfr
      obtain ⟨h1, h2⟩ := insert_both_new cmpL cmpR (u := (dL, k)) hc hb
      have hsucc := insertNode_success cmpL cmpR h1 h2
      have hres : atRightOrDefault cmpL cmpR m dL k =
          ((insertNode cmpL cmpR (eraseLeftKey cmpL cmpR m dL).1 (dL, k)).1,
           dL) := by
        simp [atRightOrDefault, hfr]
      refine ⟨by rw [hres], ?_, ?_, ?_, ?_⟩
      · rw [hres, hsucc]
        have hbr' := hw1.2.1.setInsert_pres hR (x := (dL, k))
        obtain ⟨c, d, hcd, hcd'⟩ := setInsert_inorder h2
        exact findRight_of_mem cmpR hR hbr' (by rw [hcd']; simp)
          (EquivKey.refl hR k)
      · rw [hres, hsucc]
        have hbl' := hw1.1.setInsert_pres hL (x := (dL, k))
        obtain ⟨a, b, hab, hab'⟩ := setInsert_inorder h1
        exact findLeft_of_mem cmpL hL hbl' (by rw [hab']; simp)
          (EquivKey.refl hL dL)
      · intro hfl
        have hm1m : (eraseLeftKey cmpL cmpR m dL).1 = m := by
          simp [eraseLeftKey, hfl]
        rw [hres, hsucc]
        show (eraseLeftKey cmpL cmpR m dL).1.m_size + 1 = m.size + 1
        rw [hm1m]
        rfl
      · intro hfl
        cases hfl' : findLeft cmpL m dL with
        | none => exact absurd hfl' hfl
        | some q =>
          have hm1size : (eraseLeftKey cmpL cmpR m dL).1.m_size =
              m.m_size - 1 := by
            simp [eraseLeftKey, hfl', eraseAtLeft]
          obtain ⟨hqm, _⟩ := findLeft_some_facts cmpL hL hw.1 hfl'
          have hpos : 0 < m.leftTree.inorder.length :=
            List.length_pos_of_mem hqm
          have hms := hw.2.2.2
          rw [hres, hsucc]
          show (eraseLeftKey cmpL cmpR m dL).1.m_size + 1 = m.size
          rw [hm1size]
          show m.m_size - 1 + 1 = m.m_size
          omega

theorem at_or_default_spec_witness :
    (WF natLt natLt demoBimap ∧ findLeft natLt demoBimap 4 = none ∧
     findRight natLt demoBimap 20 ≠ none) ∧
    ((atLeftOrDefault natLt natLt demoBimap 20 4).2 = 20 ∧
     findLeft natLt (atLeftOrDefault natLt natLt demoBimap 20 4).1 4 =
       some (4, 20) ∧
     findRight natLt (atLeftOrDefault natLt natLt demoBimap 20 4).1 20 =
       some (4, 20) ∧
     (atLeftOrDefault natLt natLt demoBimap 20 4).1.size = demoBimap.size) :=
  ⟨⟨by decide, by decide, by decide⟩, by
    have h := ((at_or_default_spec natLt natLt isSWO_natLt isSWO_natLt).1
      demoBimap 20 4 (by decide)).2 (by decide)
    exact ⟨h.1, h.2.1, h.2.2.1, h.2.2.2.2 (by decide)⟩⟩

end BimapModel
